import Mathlib

/-!
Verification of the `avl` package (src/avl.go): a generic AVL tree with
`Add`, `Remove`, `Contains`, `GetMin`/`GetMax`, `GetSize`, `Clear`,
`InorderTraverse` and a stack-based iterator.

The Go code works on heap nodes linked by `left`/`right` child pointers and a
`parent` back-reference; the upward rebalance walks of `Add` and `Remove`
follow `parent` pointers to the root.  The embedding below represents a
`*Node[T]` as an inductive tree (`nil` or a node carrying the Go struct's
`value` and cached `height` fields), and the upward walks as rebalancing
applied on the return path of the structural recursion that retraces the
descent — the same nodes in the same order.  The `parent` field itself is
modelled separately by an address-annotated tree for the pointer-bookkeeping
claims.
-/

set_option autoImplicit false

namespace Avl

/-- Model of a Go `*Node[T]`: `nil`, or a node with the struct's `value` and
cached `height` fields and its two child pointers.  The `parent`
back-reference cannot live inside an inductive tree; it is modelled by the
address-annotated `PNode` further down. -/
inductive NodeT (α : Type) where
  | nil : NodeT α
  | node (value : α) (left : NodeT α) (right : NodeT α) (height : Int) : NodeT α
deriving DecidableEq, Repr

/-- The height read used throughout the Go code (`leftHeight, rightHeight :=
-1, -1; if node.left != nil { leftHeight = node.left.height }`): a nil child
contributes -1, otherwise the cached `height` field. -/
def heightOf {α : Type} : NodeT α → Int
  | .nil => -1
  | .node _ _ _ h => h

/-- `node.balanceFactor()`: right height minus left height, heights read as
in `heightOf`.  The Go method is only ever called on non-nil nodes; the
`nil` case (a nil-pointer dereference in Go) is given the harmless value 0. -/
def balanceFactor {α : Type} : NodeT α → Int
  | .nil => 0
  | .node _ l r _ => heightOf r - heightOf l

/-- `node.updateHeight()`: recompute the cached height from the children's
cached heights (`math.Max` over exact small integers is plain `max`).  The
Go method returns early on a nil receiver. -/
def updateHeight {α : Type} : NodeT α → NodeT α
  | .nil => .nil
  | .node x l r _ => .node x l r (max (heightOf l) (heightOf r) + 1)

/-- `node.rotateLeft()`: the right child becomes the local root; the old
root adopts the child's left subtree, then `node.updateHeight()` runs before
`child.updateHeight()` (so the new root's height sees the old root's fresh
height).  Go dereferences `node.right` unconditionally, so the function is
only ever called when it is non-nil; the nil case returns the node
unchanged. -/
def rotateLeft {α : Type} : NodeT α → NodeT α
  | .node x l (.node rx rl rr rh) h =>
    updateHeight (.node rx (updateHeight (.node x l rl h)) rr rh)
  | t => t

/-- `node.rotateRight()`: mirror image of `rotateLeft`. -/
def rotateRight {α : Type} : NodeT α → NodeT α
  | .node x (.node lx ll lr lh) r h =>
    updateHeight (.node lx ll (updateHeight (.node x lr r h)) lh)
  | t => t

/-- `tree.rebalance(node)`: if the balance factor has magnitude at most 1,
just recompute the height; otherwise rotate (a double rotation when the
taller child leans the other way).  The Go method splices the new subtree
root into the parent with `replaceChild`; here it is the return value, which
the caller puts in the child slot (or installs as the root). -/
def rebalance {α : Type} : NodeT α → NodeT α
  | .nil => .nil
  | .node x l r h =>
    let bf := balanceFactor (.node x l r h)
    if bf.natAbs ≤ 1 then updateHeight (.node x l r h)
    else if bf < -1 then
      let l' := if 0 < balanceFactor l then rotateLeft l else l
      rotateRight (.node x l' r h)
    else
      let r' := if balanceFactor r < 0 then rotateRight r else r
      rotateLeft (.node x l r' h)

/-- One visit of the upward walk
`for parent != nil { tree.rebalance(parent); parent = parent.parent }`
of `Add` and `Remove`: when `rebalance` rotates at the visited node, the
rotation redirects that node's `parent` pointer to the new subtree root, so
the loop's next iteration visits the new subtree root before moving on to
the original parent.  A rotation happens exactly when the balance factor
read by `rebalance` has magnitude above 1, and the revisit rebalances the
rotated subtree once more (on every tree this library can actually build,
that second call is a plain `updateHeight` that changes nothing). -/
def walkStep {α : Type} (t : NodeT α) : NodeT α :=
  if 1 < (balanceFactor t).natAbs then rebalance (rebalance t) else rebalance t

/-- `tree.Add(value)` restricted to the root subtree: the descent of
`insertNode` (left when `value < next.value`, right otherwise; the new node
is created with `height: 0`), fused with the upward walk of `Add`, which
visits every ancestor of the new node starting at its parent. -/
def insertAndRebalance {α : Type} [LinearOrder α] : NodeT α → α → NodeT α
  | .nil, v => .node v .nil .nil 0
  | .node x l r h, v =>
    if v < x then walkStep (.node x (insertAndRebalance l v) r h)
    else walkStep (.node x l (insertAndRebalance r v) h)

/-- `tree.getNodeByValue(value)`: descend comparing `==` then `<`; the
returned pointer is modelled as the found subtree. -/
def getNodeByValue {α : Type} [LinearOrder α] : NodeT α → α → Option (NodeT α)
  | .nil, _ => none
  | .node x l r h, v =>
    if x = v then some (.node x l r h)
    else if v < x then getNodeByValue l v
    else getNodeByValue r v

/-- The two-children branch of `Remove`, applied to the removed node's right
child (fields `x l r h`): move `left` all the way down to the in-order
successor; the successor's own right child moves up into the successor's old
slot (`successor.parent.left = successor.right`), and the upward walk —
which starts at the successor's former parent (`actionNode =
replacement.parent` is read before `replacement.parent` is reassigned) — is
applied to each node of that left spine on the way back up.  Returns the
successor's `value` and cached `height`, which travel with the successor
node into the removed node's position, and the walked remainder of the
right subtree. -/
def extractMin {α : Type} (x : α) (l r : NodeT α) (h : Int) :
    α × Int × NodeT α :=
  match l with
  | .nil => (x, h, r)
  | .node lx ll lr lh =>
    let p := extractMin lx ll lr lh
    (p.1, p.2.1, walkStep (.node x p.2.2 r h))

/-- `tree.Remove(value)` restricted to the root subtree: the search of
`getNodeByValue` retraced structurally, then the splice — the in-order
successor replaces a node with two children (taking over its left subtree,
and its right subtree too when the successor was not the direct right
child), the single child replaces a node with at most one — and the upward
walk from the action node through every ancestor.  `none` models the
"value was not found" result, in which case the tree is untouched. -/
def removeAndRebalance {α : Type} [LinearOrder α] : NodeT α → α → Option (NodeT α)
  | .nil, _ => none
  | .node x l r h, v =>
    if x = v then
      match l, r with
      | .node lx ll lr lh, .node rx rl rr rh =>
        let p := extractMin rx rl rr rh
        some (walkStep (.node p.1 (.node lx ll lr lh) p.2.2 p.2.1))
      | .nil, _ => some r
      | _, .nil => some l
    else if v < x then
      (removeAndRebalance l v).map (fun l' => walkStep (.node x l' r h))
    else
      (removeAndRebalance r v).map (fun r' => walkStep (.node x l r' h))

/-- `InorderTraverse(node, queue)`: the values of the subtree in order (the
Go function appends them to the queue slice; the embedding returns the
appended list). -/
def inorderTraverse {α : Type} : NodeT α → List α
  | .nil => []
  | .node x l r _ => inorderTraverse l ++ x :: inorderTraverse r

/-- The `AvlTree[T]` struct: root pointer and cached element count. -/
structure AvlTree (α : Type) where
  root : NodeT α
  size : Int
deriving DecidableEq, Repr

/-- `NewAvlTree[T]()`: nil root, zero size (the Go zero value). -/
def NewAvlTree (α : Type) : AvlTree α := ⟨.nil, 0⟩

/-- `tree.Add(value)`: insert, walk, then `tree.size += 1`. -/
def AvlTree.Add {α : Type} [LinearOrder α] (tree : AvlTree α) (value : α) :
    AvlTree α :=
  { root := insertAndRebalance tree.root value, size := tree.size + 1 }

/-- `tree.Remove(value)`: the boolean result paired with the tree state
after the call (`false` leaves the tree untouched; `true` also runs
`tree.size -= 1`). -/
def AvlTree.Remove {α : Type} [LinearOrder α] (tree : AvlTree α) (value : α) :
    Bool × AvlTree α :=
  match removeAndRebalance tree.root value with
  | none => (false, tree)
  | some r => (true, { root := r, size := tree.size - 1 })

/-- `tree.Contains(value)`: `getNodeByValue(value) != nil`. -/
def AvlTree.Contains {α : Type} [LinearOrder α] (tree : AvlTree α) (value : α) :
    Bool :=
  (getNodeByValue tree.root value).isSome

/-- `tree.Clear()`: nil root, zero size. -/
def AvlTree.Clear {α : Type} (_ : AvlTree α) : AvlTree α := ⟨.nil, 0⟩

/-- `tree.IsEmpty()`: `tree.root == nil`. -/
def AvlTree.IsEmpty {α : Type} (tree : AvlTree α) : Bool :=
  tree.root matches .nil

/-- `tree.GetSize()`. -/
def AvlTree.GetSize {α : Type} (tree : AvlTree α) : Int :=
  tree.size

/-- The all-left descent loop of `GetMin`
(`for curr != nil && curr.left != nil { curr = curr.left }`), carrying the
value of the current node. -/
def minFrom {α : Type} (x : α) : NodeT α → α
  | .nil => x
  | .node lx ll _ _ => minFrom lx ll

/-- The all-right descent loop of `GetMax`. -/
def maxFrom {α : Type} (x : α) : NodeT α → α
  | .nil => x
  | .node rx _ rr _ => maxFrom rx rr

/-- `tree.GetMin()`: `none` models the `tree is empty` error (the loop ends
with `curr == nil` exactly when the root was nil). -/
def AvlTree.GetMin {α : Type} (tree : AvlTree α) : Option α :=
  match tree.root with
  | .nil => none
  | .node x l _ _ => some (minFrom x l)

/-- `tree.GetMax()`: `none` models the `tree is empty` error. -/
def AvlTree.GetMax {α : Type} (tree : AvlTree α) : Option α :=
  match tree.root with
  | .nil => none
  | .node x _ r _ => some (maxFrom x r)

/-- The `AvlTreeIterator[T]` struct minus the tree pointer (the tree is
passed to `iterNext` explicitly): the explicit node stack and the count of
elements already yielded.  The head of the list is the top of the stack
(the Go slice pushes and pops at its end). -/
structure AvlTreeIterator (α : Type) where
  stack : List (NodeT α)
  index : Int
deriving DecidableEq, Repr

/-- `tree.NewIterator()`: empty stack, index 0. -/
def AvlTree.NewIterator {α : Type} (_ : AvlTree α) : AvlTreeIterator α :=
  ⟨[], 0⟩

/-- The push loop
`for curr != nil { iter.stack = append(iter.stack, curr); curr = curr.left }`. -/
def pushLeftSpine {α : Type} : NodeT α → List (NodeT α) → List (NodeT α)
  | .nil, s => s
  | .node x l r h, s => pushLeftSpine l (.node x l r h :: s)

/-- `iter.Next()`: yields `(value, index)` and the iterator's next state.
The zero value of the Go type parameter is modelled by `default`; a `none`
result models a Go runtime panic — the pop `iter.stack[len(iter.stack)-1]`
finding an empty stack (or a nil node on the stack, which the push loops
never produce). -/
def iterNextPop {α : Type} [Inhabited α] (tree : AvlTree α)
    (iter : AvlTreeIterator α) : Option (α × Int × AvlTreeIterator α) :=
  if tree.size ≤ iter.index then some (default, -1, iter)
  else
    match iter.stack with
    | [] => none
    | nextNode :: rest =>
      match nextNode with
      | .nil => none
      | .node x _ r _ =>
        some (x, iter.index, ⟨pushLeftSpine r rest, iter.index + 1⟩)

/-- `iter.Next()`, entry point: on the very first call an empty tree
reports exhaustion at once, a non-empty tree pushes the root's left spine;
then `iterNextPop` performs the end-of-tree check and the pop. -/
def iterNext {α : Type} [Inhabited α] (tree : AvlTree α)
    (iter : AvlTreeIterator α) : Option (α × Int × AvlTreeIterator α) :=
  if iter.index = 0 then
    match tree.root with
    | .nil => some (default, -1, iter)
    | root => iterNextPop tree { iter with stack := pushLeftSpine root iter.stack }
  else iterNextPop tree iter

/-- The claimed height/balance invariant, read off the cached fields exactly
as stated: at every node the cached `height` equals
`max(height(left), height(right)) + 1` (an absent child counting -1) and the
balance factor has magnitude at most 1. -/
def avlOk {α : Type} : NodeT α → Bool
  | .nil => true
  | .node _ l r h =>
    avlOk l && avlOk r && decide (h = max (heightOf l) (heightOf r) + 1) &&
      decide ((heightOf r - heightOf l).natAbs ≤ 1)

/-- Tree states reachable from `NewAvlTree` by the public mutating API. -/
inductive Reachable {α : Type} [LinearOrder α] : AvlTree α → Prop where
  | new : Reachable (NewAvlTree α)
  | add {t : AvlTree α} (v : α) : Reachable t → Reachable (t.Add v)
  | remove {t : AvlTree α} (v : α) : Reachable t → Reachable (t.Remove v).2
  | clear {t : AvlTree α} : Reachable t → Reachable t.Clear

section InorderPreservation

variable {α : Type}

theorem inorderTraverse_updateHeight (t : NodeT α) :
    inorderTraverse (updateHeight t) = inorderTraverse t := by
  cases t <;> simp [updateHeight, inorderTraverse]

theorem inorderTraverse_rotateLeft (t : NodeT α) :
    inorderTraverse (rotateLeft t) = inorderTraverse t := by
  cases t with
  | nil => rfl
  | node x l r h =>
    cases r with
    | nil => rfl
    | node rx rl rr rh =>
      simp [rotateLeft, inorderTraverse, inorderTraverse_updateHeight,
        updateHeight]

theorem inorderTraverse_rotateRight (t : NodeT α) :
    inorderTraverse (rotateRight t) = inorderTraverse t := by
  cases t with
  | nil => rfl
  | node x l r h =>
    cases l with
    | nil => rfl
    | node lx ll lr lh =>
      simp [rotateRight, inorderTraverse, inorderTraverse_updateHeight,
        updateHeight]

theorem inorderTraverse_rebalance (t : NodeT α) :
    inorderTraverse (rebalance t) = inorderTraverse t := by
  cases t with
  | nil => rfl
  | node x l r h =>
    simp only [rebalance]
    split_ifs with h1 h2 h3 <;>
      simp [inorderTraverse_updateHeight, inorderTraverse_rotateLeft,
        inorderTraverse_rotateRight, inorderTraverse]

theorem inorderTraverse_walkStep (t : NodeT α) :
    inorderTraverse (walkStep t) = inorderTraverse t := by
  simp only [walkStep]
  split_ifs <;> simp [inorderTraverse_rebalance]

end InorderPreservation

section Bst

variable {α : Type} [LinearOrder α]

theorem sorted_append {l₁ l₂ : List α} :
    (l₁ ++ l₂).Sorted (· ≤ ·) ↔ l₁.Sorted (· ≤ ·) ∧ l₂.Sorted (· ≤ ·) ∧
      ∀ a ∈ l₁, ∀ b ∈ l₂, a ≤ b :=
  List.pairwise_append

theorem inorderTraverse_insertAndRebalance_perm (t : NodeT α) (v : α) :
    List.Perm (inorderTraverse (insertAndRebalance t v)) (v :: inorderTraverse t) := by
  induction t with
  | nil => simp [insertAndRebalance, inorderTraverse]
  | node x l r h ihl ihr =>
    simp only [insertAndRebalance]
    split_ifs with hv
    · simp only [inorderTraverse_walkStep, inorderTraverse]
      have h1 := ihl.append_right (x :: inorderTraverse r)
      simpa using h1
    · simp only [inorderTraverse_walkStep, inorderTraverse]
      have h1 : List.Perm
          (inorderTraverse l ++ x :: inorderTraverse (insertAndRebalance r v))
          (inorderTraverse l ++ x :: v :: inorderTraverse r) :=
        List.Perm.append_left _ (ihr.cons x)
      have h2 : List.Perm
          (inorderTraverse l ++ x :: v :: inorderTraverse r)
          (inorderTraverse l ++ v :: x :: inorderTraverse r) :=
        List.Perm.append_left _ (List.Perm.swap v x _)
      have h3 : List.Perm
          (inorderTraverse l ++ v :: x :: inorderTraverse r)
          (v :: (inorderTraverse l ++ x :: inorderTraverse r)) :=
        List.perm_middle
      exact (h1.trans h2).trans h3

theorem length_inorderTraverse_insertAndRebalance (t : NodeT α) (v : α) :
    (inorderTraverse (insertAndRebalance t v)).length =
      (inorderTraverse t).length + 1 := by
  simpa using (inorderTraverse_insertAndRebalance_perm t v).length_eq

theorem sorted_insertAndRebalance (t : NodeT α) (v : α)
    (hs : (inorderTraverse t).Sorted (· ≤ ·)) :
    (inorderTraverse (insertAndRebalance t v)).Sorted (· ≤ ·) := by
  induction t with
  | nil => simp [insertAndRebalance, inorderTraverse]
  | node x l r h ihl ihr =>
    rw [inorderTraverse, sorted_append, List.sorted_cons] at hs
    obtain ⟨hsl, ⟨hxr, hsr⟩, hcross⟩ := hs
    simp only [insertAndRebalance]
    split_ifs with hv
    · rw [inorderTraverse_walkStep, inorderTraverse, sorted_append,
        List.sorted_cons]
      refine ⟨ihl hsl, ⟨hxr, hsr⟩, ?_⟩
      intro a ha b hb
      rcases List.mem_cons.mp ((inorderTraverse_insertAndRebalance_perm l v).mem_iff.mp ha) with
        rfl | ha'
      · rcases List.mem_cons.mp hb with rfl | hb'
        · exact hv.le
        · exact le_trans hv.le (hxr b hb')
      · exact hcross a ha' b hb
    · rw [inorderTraverse_walkStep, inorderTraverse, sorted_append,
        List.sorted_cons]
      refine ⟨hsl, ⟨?_, ihr hsr⟩, ?_⟩
      · intro b hb
        rcases List.mem_cons.mp ((inorderTraverse_insertAndRebalance_perm r v).mem_iff.mp hb) with
          rfl | hb'
        · exact not_lt.mp hv
        · exact hxr b hb'
      · intro a ha b hb
        have hax : a ≤ x := hcross a ha x (List.mem_cons_self x _)
        rcases List.mem_cons.mp hb with heq | hb'
        · exact heq ▸ hax
        · rcases List.mem_cons.mp
            ((inorderTraverse_insertAndRebalance_perm r v).mem_iff.mp hb') with
            heq | hb''
          · exact heq ▸ le_trans hax (not_lt.mp hv)
          · exact le_trans hax (hxr b hb'')

theorem getNodeByValue_isSome_iff (t : NodeT α) (v : α)
    (hs : (inorderTraverse t).Sorted (· ≤ ·)) :
    (getNodeByValue t v).isSome = true ↔ v ∈ inorderTraverse t := by
  induction t with
  | nil => simp [getNodeByValue, inorderTraverse]
  | node x l r h ihl ihr =>
    rw [inorderTraverse, sorted_append, List.sorted_cons] at hs
    obtain ⟨hsl, ⟨hxr, hsr⟩, hcross⟩ := hs
    simp only [getNodeByValue]
    split_ifs with hx hv
    · subst hx
      simp [inorderTraverse]
    · rw [ihl hsl, inorderTraverse]
      constructor
      · intro hm
        exact List.mem_append.mpr (Or.inl hm)
      · intro hm
        rcases List.mem_append.mp hm with hm' | hm'
        · exact hm'
        · rcases List.mem_cons.mp hm' with rfl | hm''
          · exact absurd rfl hx
          · exact absurd (hxr v hm'') (not_le.mpr hv)
    · have hxv : x < v := lt_of_le_of_ne (not_lt.mp hv) hx
      rw [ihr hsr, inorderTraverse]
      constructor
      · intro hm
        exact List.mem_append.mpr (Or.inr (List.mem_cons.mpr (Or.inr hm)))
      · intro hm
        rcases List.mem_append.mp hm with hm' | hm'
        · exact absurd (hcross v hm' x (List.mem_cons_self x _))
            (not_le.mpr hxv)
        · rcases List.mem_cons.mp hm' with rfl | hm''
          · exact absurd rfl hx
          · exact hm''

theorem extractMin_inorder (x : α) (l r : NodeT α) (h : Int) :
    (extractMin x l r h).1 :: inorderTraverse (extractMin x l r h).2.2 =
      inorderTraverse (.node x l r h) := by
  induction l generalizing x r h with
  | nil => simp [extractMin, inorderTraverse]
  | node lx ll lr lh ihl ihr =>
    simp only [extractMin, inorderTraverse, inorderTraverse_walkStep]
    rw [← List.cons_append, ihl lx lr]
    simp [inorderTraverse]

theorem removeAndRebalance_isSome (t : NodeT α) (v : α) :
    (removeAndRebalance t v).isSome = (getNodeByValue t v).isSome := by
  induction t with
  | nil => rfl
  | node x l r h ihl ihr =>
    simp only [removeAndRebalance, getNodeByValue]
    split_ifs with hx hv
    · cases l <;> cases r <;> simp
    · simpa using ihl
    · simpa using ihr

theorem removeAndRebalance_inorder {t : NodeT α} {v : α} {t' : NodeT α}
    (hrem : removeAndRebalance t v = some t') :
    ∃ A B, inorderTraverse t = A ++ v :: B ∧ inorderTraverse t' = A ++ B := by
  induction t generalizing t' with
  | nil => simp [removeAndRebalance] at hrem
  | node x l r h ihl ihr =>
    simp only [removeAndRebalance] at hrem
    split_ifs at hrem with hx hv
    · subst hx
      cases l with
      | nil =>
        simp only [Option.some.injEq] at hrem
        subst hrem
        exact ⟨[], inorderTraverse r, by simp [inorderTraverse], by simp⟩
      | node lx ll lr lh =>
        cases r with
        | nil =>
          simp only [Option.some.injEq] at hrem
          subst hrem
          exact ⟨inorderTraverse (NodeT.node lx ll lr lh), [],
            by simp [inorderTraverse], by simp⟩
        | node rx rl rr rh =>
          simp only [Option.some.injEq] at hrem
          subst hrem
          refine ⟨inorderTraverse (NodeT.node lx ll lr lh),
            inorderTraverse (NodeT.node rx rl rr rh),
            by simp [inorderTraverse], ?_⟩
          rw [inorderTraverse_walkStep, inorderTraverse,
            ← extractMin_inorder rx rl rr rh]
    · rcases Option.map_eq_some'.mp hrem with ⟨l', hl', rfl⟩
      obtain ⟨A, B, hAB, hAB'⟩ := ihl hl'
      exact ⟨A, B ++ x :: inorderTraverse r,
        by simp [inorderTraverse, hAB],
        by simp [inorderTraverse_walkStep, inorderTraverse, hAB']⟩
    · rcases Option.map_eq_some'.mp hrem with ⟨r', hr', rfl⟩
      obtain ⟨A, B, hAB, hAB'⟩ := ihr hr'
      exact ⟨inorderTraverse l ++ x :: A, B,
        by simp [inorderTraverse, hAB],
        by simp [inorderTraverse_walkStep, inorderTraverse, hAB']⟩

theorem sorted_removeAndRebalance {t : NodeT α} {v : α} {t' : NodeT α}
    (hrem : removeAndRebalance t v = some t')
    (hs : (inorderTraverse t).Sorted (· ≤ ·)) :
    (inorderTraverse t').Sorted (· ≤ ·) := by
  obtain ⟨A, B, hAB, hAB'⟩ := removeAndRebalance_inorder hrem
  rw [hAB] at hs
  rw [hAB']
  exact hs.sublist ((List.sublist_cons_self v B).append_left A)

end Bst

section AvlInvariant

variable {α : Type}

theorem avlOk_node {x : α} {l r : NodeT α} {h : Int} :
    avlOk (NodeT.node x l r h) = true ↔
      avlOk l = true ∧ avlOk r = true ∧
        h = max (heightOf l) (heightOf r) + 1 ∧
        (heightOf r - heightOf l).natAbs ≤ 1 := by
  simp [avlOk, Bool.and_eq_true, decide_eq_true_eq, and_assoc]

theorem heightOf_nil {α : Type} : heightOf (NodeT.nil : NodeT α) = -1 := rfl

theorem heightOf_node {α : Type} (x : α) (l r : NodeT α) (h : Int) :
    heightOf (NodeT.node x l r h) = h := rfl

theorem max_facts (x y : Int) :
    x ≤ max x y ∧ y ≤ max x y ∧ (max x y = x ∨ max x y = y) :=
  ⟨le_max_left x y, le_max_right x y, max_choice x y⟩

theorem heightOf_ge {t : NodeT α} (ht : avlOk t = true) : -1 ≤ heightOf t := by
  induction t with
  | nil => simp [heightOf]
  | node x l r h ihl ihr =>
    rw [avlOk_node] at ht
    obtain ⟨hl, hr, hh, _⟩ := ht
    have h1 := ihl hl
    obtain ⟨m1, m2, m3⟩ := max_facts (heightOf l) (heightOf r)
    simp only [heightOf]
    omega

theorem node_of_heightOf_nonneg {t : NodeT α} (h0 : 0 ≤ heightOf t) :
    ∃ x l r h, t = NodeT.node x l r h := by
  cases t with
  | nil => simp [heightOf] at h0
  | node x l r h => exact ⟨x, l, r, h, rfl⟩

theorem rebalance_balanced (x : α) (h : Int) {l r : NodeT α}
    (hbf : (heightOf r - heightOf l).natAbs ≤ 1) :
    rebalance (NodeT.node x l r h) =
      NodeT.node x l r (max (heightOf l) (heightOf r) + 1) := by
  simp [rebalance, balanceFactor, updateHeight, hbf]

theorem rebalance_of_avlOk {t : NodeT α} (ht : avlOk t = true) :
    rebalance t = t := by
  cases t with
  | nil => rfl
  | node x l r h =>
    rw [avlOk_node] at ht
    obtain ⟨hl, hr, hh, hb⟩ := ht
    rw [rebalance_balanced x h hb, hh]

theorem walkStep_balanced (x : α) (h : Int) {l r : NodeT α}
    (hbf : (heightOf r - heightOf l).natAbs ≤ 1) :
    walkStep (NodeT.node x l r h) =
      NodeT.node x l r (max (heightOf l) (heightOf r) + 1) := by
  rw [walkStep, if_neg, rebalance_balanced x h hbf]
  simp [balanceFactor]
  omega

theorem walkStep_unbalanced (x : α) (h : Int) {l r : NodeT α}
    (hbf : 1 < (heightOf r - heightOf l).natAbs) :
    walkStep (NodeT.node x l r h) =
      rebalance (rebalance (NodeT.node x l r h)) := by
  rw [walkStep, if_pos]
  simpa [balanceFactor] using hbf

theorem rebalance_spec {x : α} {h : Int} {l r : NodeT α}
    (hl : avlOk l = true) (hr : avlOk r = true)
    (hd : (heightOf l - heightOf r).natAbs ≤ 2) :
    avlOk (rebalance (NodeT.node x l r h)) = true ∧
      (heightOf (rebalance (NodeT.node x l r h)) =
          max (heightOf l) (heightOf r) + 1 ∨
        ((heightOf l - heightOf r).natAbs = 2 ∧
          heightOf (rebalance (NodeT.node x l r h)) =
            max (heightOf l) (heightOf r))) := by
  by_cases h1 : (heightOf r - heightOf l).natAbs ≤ 1
  · rw [rebalance_balanced x h h1]
    constructor
    · rw [avlOk_node]
      exact ⟨hl, hr, rfl, h1⟩
    · left
      simp only [heightOf_node]
  · have h2 : (heightOf l - heightOf r).natAbs = 2 := by omega
    by_cases h3 : heightOf r - heightOf l < -1
    · -- left-heavy: heightOf l = heightOf r + 2
      have hb0 : -1 ≤ heightOf r := heightOf_ge hr
      have ha : heightOf l = heightOf r + 2 := by omega
      obtain ⟨lx, ll, lr, lh, rfl⟩ :=
        node_of_heightOf_nonneg (t := l) (by omega)
      simp only [heightOf_node] at ha
      rw [avlOk_node] at hl
      obtain ⟨hll, hlr, hlh, hlb⟩ := hl
      obtain ⟨p1, p2, p3⟩ := max_facts (heightOf ll) (heightOf lr)
      have hre : rebalance (NodeT.node x (NodeT.node lx ll lr lh) r h) =
          rotateRight (NodeT.node x
            (if 0 < balanceFactor (NodeT.node lx ll lr lh)
              then rotateLeft (NodeT.node lx ll lr lh)
              else NodeT.node lx ll lr lh) r h) := by
        rw [rebalance]
        rw [if_neg, if_pos]
        · simp only [balanceFactor, heightOf_node]
          omega
        · simp only [balanceFactor, heightOf_node]
          omega
      by_cases h4 : 0 < balanceFactor (NodeT.node lx ll lr lh)
      · -- Left-Right double rotation
        simp only [balanceFactor] at h4
        have hlr0 : 0 ≤ heightOf lr := by
          have := heightOf_ge hll
          omega
        obtain ⟨mx, ml, mr, mh, rfl⟩ := node_of_heightOf_nonneg (t := lr) (by omega)
        simp only [heightOf_node] at h4 hlh p1 p2 p3 hlb hlr0
        rw [avlOk_node] at hlr
        obtain ⟨hml, hmr, hmh, hmb⟩ := hlr
        obtain ⟨q1, q2, q3⟩ := max_facts (heightOf ml) (heightOf mr)
        have hcomp : rebalance (NodeT.node x
            (NodeT.node lx ll (NodeT.node mx ml mr mh) lh) r h) =
            NodeT.node mx
              (NodeT.node lx ll ml (max (heightOf ll) (heightOf ml) + 1))
              (NodeT.node x mr r (max (heightOf mr) (heightOf r) + 1))
              (max (max (heightOf ll) (heightOf ml) + 1)
                (max (heightOf mr) (heightOf r) + 1) + 1) := by
          rw [hre, if_pos]
          · simp [rotateLeft, rotateRight, updateHeight, heightOf_node,
              heightOf_nil]
          · simp only [balanceFactor, heightOf_node]
            omega
        rw [hcomp]
        obtain ⟨s1, s2, s3⟩ := max_facts (heightOf ll) (heightOf ml)
        obtain ⟨s4, s5, s6⟩ := max_facts (heightOf mr) (heightOf r)
        obtain ⟨s7, s8, s9⟩ := max_facts (max (heightOf ll) (heightOf ml) + 1)
          (max (heightOf mr) (heightOf r) + 1)
        obtain ⟨s10, s11, s12⟩ := max_facts lh (heightOf r)
        constructor
        · exact avlOk_node.mpr ⟨avlOk_node.mpr ⟨hll, hml, rfl, by
            (try simp only [heightOf_node, heightOf_nil]); omega⟩,
            avlOk_node.mpr ⟨hmr, hr, rfl, by
              (try simp only [heightOf_node, heightOf_nil]); omega⟩,
            rfl, by (try simp only [heightOf_node, heightOf_nil]); omega⟩
        · simp only [heightOf_node, heightOf_nil]
          omega
      · -- Left-Left single rotation
        simp only [balanceFactor, heightOf_node] at h4
        have hcomp : rebalance (NodeT.node x
            (NodeT.node lx ll lr lh) r h) =
            NodeT.node lx ll
              (NodeT.node x lr r (max (heightOf lr) (heightOf r) + 1))
              (max (heightOf ll) (max (heightOf lr) (heightOf r) + 1) + 1) := by
          rw [hre, if_neg]
          · simp [rotateRight, updateHeight, heightOf_node, heightOf_nil]
          · simp only [balanceFactor, heightOf_node]
            omega
        rw [hcomp]
        obtain ⟨s1, s2, s3⟩ := max_facts (heightOf lr) (heightOf r)
        obtain ⟨s4, s5, s6⟩ := max_facts (heightOf ll)
          (max (heightOf lr) (heightOf r) + 1)
        obtain ⟨s7, s8, s9⟩ := max_facts lh (heightOf r)
        constructor
        · exact avlOk_node.mpr ⟨hll, avlOk_node.mpr ⟨hlr, hr, rfl, by
            (try simp only [heightOf_node, heightOf_nil]); omega⟩, rfl, by
            (try simp only [heightOf_node, heightOf_nil]); omega⟩
        · simp only [heightOf_node, heightOf_nil]
          omega
    · -- right-heavy: heightOf r = heightOf l + 2
      have ha0 : -1 ≤ heightOf l := heightOf_ge hl
      have ha : heightOf r = heightOf l + 2 := by omega
      obtain ⟨rx, rl, rr, rh, rfl⟩ :=
        node_of_heightOf_nonneg (t := r) (by omega)
      simp only [heightOf_node] at ha
      rw [avlOk_node] at hr
      obtain ⟨hrl, hrr, hrh, hrb⟩ := hr
      obtain ⟨p1, p2, p3⟩ := max_facts (heightOf rl) (heightOf rr)
      have hre : rebalance (NodeT.node x l (NodeT.node rx rl rr rh) h) =
          rotateLeft (NodeT.node x l
            (if balanceFactor (NodeT.node rx rl rr rh) < 0
              then rotateRight (NodeT.node rx rl rr rh)
              else NodeT.node rx rl rr rh) h) := by
        rw [rebalance]
        rw [if_neg, if_neg]
        · simp only [balanceFactor, heightOf_node]
          omega
        · simp only [balanceFactor, heightOf_node]
          omega
      by_cases h4 : balanceFactor (NodeT.node rx rl rr rh) < 0
      · -- Right-Left double rotation
        simp only [balanceFactor] at h4
        have hrl0 : 0 ≤ heightOf rl := by
          have := heightOf_ge hrr
          omega
        obtain ⟨mx, ml, mr, mh, rfl⟩ := node_of_heightOf_nonneg (t := rl) (by omega)
        simp only [heightOf_node] at h4 hrh p1 p2 p3 hrb hrl0
        rw [avlOk_node] at hrl
        obtain ⟨hml, hmr, hmh, hmb⟩ := hrl
        obtain ⟨q1, q2, q3⟩ := max_facts (heightOf ml) (heightOf mr)
        have hcomp : rebalance (NodeT.node x l
            (NodeT.node rx (NodeT.node mx ml mr mh) rr rh) h) =
            NodeT.node mx
              (NodeT.node x l ml (max (heightOf l) (heightOf ml) + 1))
              (NodeT.node rx mr rr (max (heightOf mr) (heightOf rr) + 1))
              (max (max (heightOf l) (heightOf ml) + 1)
                (max (heightOf mr) (heightOf rr) + 1) + 1) := by
          rw [hre, if_pos]
          · simp [rotateLeft, rotateRight, updateHeight, heightOf_node,
              heightOf_nil]
          · simp only [balanceFactor, heightOf_node]
            omega
        rw [hcomp]
        obtain ⟨s1, s2, s3⟩ := max_facts (heightOf l) (heightOf ml)
        obtain ⟨s4, s5, s6⟩ := max_facts (heightOf mr) (heightOf rr)
        obtain ⟨s7, s8, s9⟩ := max_facts (max (heightOf l) (heightOf ml) + 1)
          (max (heightOf mr) (heightOf rr) + 1)
        obtain ⟨s10, s11, s12⟩ := max_facts (heightOf l) rh
        constructor
        · exact avlOk_node.mpr ⟨avlOk_node.mpr ⟨hl, hml, rfl, by
            (try simp only [heightOf_node, heightOf_nil]); omega⟩,
            avlOk_node.mpr ⟨hmr, hrr, rfl, by
              (try simp only [heightOf_node, heightOf_nil]); omega⟩,
            rfl, by (try simp only [heightOf_node, heightOf_nil]); omega⟩
        · simp only [heightOf_node, heightOf_nil]
          omega
      · -- Right-Right single rotation
        simp only [balanceFactor, heightOf_node] at h4
        have hcomp : rebalance (NodeT.node x l
            (NodeT.node rx rl rr rh) h) =
            NodeT.node rx
              (NodeT.node x l rl (max (heightOf l) (heightOf rl) + 1))
              rr
              (max (max (heightOf l) (heightOf rl) + 1) (heightOf rr) + 1) := by
          rw [hre, if_neg]
          · simp [rotateLeft, updateHeight, heightOf_node, heightOf_nil]
          · simp only [balanceFactor, heightOf_node]
            omega
        rw [hcomp]
        obtain ⟨s1, s2, s3⟩ := max_facts (heightOf l) (heightOf rl)
        obtain ⟨s4, s5, s6⟩ := max_facts (max (heightOf l) (heightOf rl) + 1)
          (heightOf rr)
        obtain ⟨s7, s8, s9⟩ := max_facts (heightOf l) rh
        constructor
        · exact avlOk_node.mpr ⟨avlOk_node.mpr ⟨hl, hrl, rfl, by
            (try simp only [heightOf_node, heightOf_nil]); omega⟩, hrr, rfl, by
            (try simp only [heightOf_node, heightOf_nil]); omega⟩
        · simp only [heightOf_node, heightOf_nil]
          omega

theorem walkStep_spec {x : α} {h : Int} {l r : NodeT α}
    (hl : avlOk l = true) (hr : avlOk r = true)
    (hd : (heightOf l - heightOf r).natAbs ≤ 2) :
    avlOk (walkStep (NodeT.node x l r h)) = true ∧
      (heightOf (walkStep (NodeT.node x l r h)) =
          max (heightOf l) (heightOf r) + 1 ∨
        ((heightOf l - heightOf r).natAbs = 2 ∧
          heightOf (walkStep (NodeT.node x l r h)) =
            max (heightOf l) (heightOf r))) := by
  by_cases h1 : (heightOf r - heightOf l).natAbs ≤ 1
  · have heq : walkStep (NodeT.node x l r h) = rebalance (NodeT.node x l r h) := by
      rw [walkStep, if_neg]
      simp only [balanceFactor]
      omega
    rw [heq]
    exact rebalance_spec hl hr hd
  · have heq : walkStep (NodeT.node x l r h) =
        rebalance (rebalance (NodeT.node x l r h)) := by
      rw [walkStep, if_pos]
      simp only [balanceFactor]
      omega
    obtain ⟨ha, hh⟩ := rebalance_spec hl hr hd
    rw [heq, rebalance_of_avlOk ha]
    exact ⟨ha, hh⟩

theorem extractMin_nil (x : α) (r : NodeT α) (h : Int) :
    extractMin x NodeT.nil r h = (x, h, r) := rfl

theorem extractMin_node (x lx : α) (ll lr r : NodeT α) (lh h : Int) :
    extractMin x (NodeT.node lx ll lr lh) r h =
      ((extractMin lx ll lr lh).1, (extractMin lx ll lr lh).2.1,
        walkStep (NodeT.node x (extractMin lx ll lr lh).2.2 r h)) := rfl

theorem extractMin_avlOk : ∀ {l : NodeT α} (x : α) (r : NodeT α) (h : Int),
    avlOk (NodeT.node x l r h) = true →
      avlOk (extractMin x l r h).2.2 = true ∧
        (heightOf (extractMin x l r h).2.2 = h ∨
          heightOf (extractMin x l r h).2.2 = h - 1) := by
  intro l
  induction l with
  | nil =>
    intro x r h ht
    rw [avlOk_node] at ht
    obtain ⟨_, hr, hh, hb⟩ := ht
    rw [extractMin_nil]
    refine ⟨hr, ?_⟩
    show heightOf r = h ∨ heightOf r = h - 1
    simp only [heightOf_nil] at hh hb
    have hmax : max (-1 : Int) (heightOf r) = heightOf r :=
      max_eq_right (heightOf_ge hr)
    rw [hmax] at hh
    omega
  | node lx ll lr lh ihl ihr =>
    intro x r h ht
    rw [avlOk_node] at ht
    obtain ⟨hl, hr, hh, hb⟩ := ht
    obtain ⟨ha, hht⟩ := ihl lx lr lh hl
    rw [extractMin_node]
    have hd : (heightOf (extractMin lx ll lr lh).2.2 - heightOf r).natAbs ≤ 2 := by
      simp only [heightOf_node] at hb
      omega
    obtain ⟨hA, hH⟩ := walkStep_spec (x := x) (h := h) ha hr hd
    refine ⟨hA, ?_⟩
    show heightOf (walkStep (NodeT.node x (extractMin lx ll lr lh).2.2 r h)) = h ∨
      heightOf (walkStep (NodeT.node x (extractMin lx ll lr lh).2.2 r h)) = h - 1
    simp only [heightOf_node] at hb hh
    obtain ⟨m1, m2, m3⟩ := max_facts lh (heightOf r)
    obtain ⟨m4, m5, m6⟩ := max_facts (heightOf (extractMin lx ll lr lh).2.2)
      (heightOf r)
    omega

end AvlInvariant

section AvlOps

variable {α : Type} [LinearOrder α]

theorem insertAndRebalance_avlOk (v : α) :
    ∀ {t : NodeT α}, avlOk t = true →
      avlOk (insertAndRebalance t v) = true ∧
        (heightOf (insertAndRebalance t v) = heightOf t ∨
          heightOf (insertAndRebalance t v) = heightOf t + 1) := by
  intro t
  induction t with
  | nil =>
    intro _
    constructor
    · simp [insertAndRebalance, avlOk, heightOf]
    · right
      simp [insertAndRebalance, heightOf]
  | node x l r h ihl ihr =>
    intro ht
    rw [avlOk_node] at ht
    obtain ⟨hl, hr, hh, hb⟩ := ht
    simp only [insertAndRebalance]
    split_ifs with hv
    · obtain ⟨hal, hhl⟩ := ihl hl
      have hd : (heightOf (insertAndRebalance l v) - heightOf r).natAbs ≤ 2 := by
        omega
      obtain ⟨hA, hH⟩ := walkStep_spec (x := x) (h := h) hal hr hd
      refine ⟨hA, ?_⟩
      simp only [heightOf_node]
      obtain ⟨m1, m2, m3⟩ := max_facts (heightOf l) (heightOf r)
      obtain ⟨m4, m5, m6⟩ := max_facts (heightOf (insertAndRebalance l v))
        (heightOf r)
      omega
    · obtain ⟨har, hhr⟩ := ihr hr
      have hd : (heightOf l - heightOf (insertAndRebalance r v)).natAbs ≤ 2 := by
        omega
      obtain ⟨hA, hH⟩ := walkStep_spec (x := x) (h := h) hl har hd
      refine ⟨hA, ?_⟩
      simp only [heightOf_node]
      obtain ⟨m1, m2, m3⟩ := max_facts (heightOf l) (heightOf r)
      obtain ⟨m4, m5, m6⟩ := max_facts (heightOf l)
        (heightOf (insertAndRebalance r v))
      omega

theorem removeAndRebalance_avlOk (v : α) :
    ∀ {t : NodeT α}, avlOk t = true →
      ∀ {t' : NodeT α}, removeAndRebalance t v = some t' →
        avlOk t' = true ∧
          (heightOf t' = heightOf t ∨ heightOf t' = heightOf t - 1) := by
  intro t
  induction t with
  | nil =>
    intro _ t' hrem
    simp [removeAndRebalance] at hrem
  | node x l r h ihl ihr =>
    intro ht t' hrem
    rw [avlOk_node] at ht
    obtain ⟨hl, hr, hh, hb⟩ := ht
    simp only [removeAndRebalance] at hrem
    split_ifs at hrem with hx hv
    · cases l with
      | nil =>
        simp only [Option.some.injEq] at hrem
        subst hrem
        refine ⟨hr, ?_⟩
        simp only [heightOf_nil, heightOf_node] at hh hb ⊢
        have hmax : max (-1 : Int) (heightOf r) = heightOf r :=
          max_eq_right (heightOf_ge hr)
        rw [hmax] at hh
        omega
      | node lx ll lr lh =>
        cases r with
        | nil =>
          simp only [Option.some.injEq] at hrem
          subst hrem
          refine ⟨hl, ?_⟩
          simp only [heightOf_nil, heightOf_node] at hh hb ⊢
          have hlh0 : (-1 : Int) ≤ lh := by
            have := heightOf_ge hl
            simpa using this
          have hmax : max lh (-1 : Int) = lh := max_eq_left hlh0
          rw [hmax] at hh
          omega
        | node rx rl rr rh =>
          simp only [Option.some.injEq] at hrem
          subst hrem
          obtain ⟨ha, hht⟩ := extractMin_avlOk rx rr rh hr
          have hd : (heightOf (NodeT.node lx ll lr lh) -
              heightOf (extractMin rx rl rr rh).2.2).natAbs ≤ 2 := by
            simp only [heightOf_node] at hb ⊢
            omega
          obtain ⟨hA, hH⟩ := walkStep_spec
            (x := (extractMin rx rl rr rh).1)
            (h := (extractMin rx rl rr rh).2.1) hl ha hd
          refine ⟨hA, ?_⟩
          simp only [heightOf_node] at hb hh hd hH ⊢
          obtain ⟨m1, m2, m3⟩ := max_facts lh rh
          obtain ⟨m4, m5, m6⟩ := max_facts lh
            (heightOf (extractMin rx rl rr rh).2.2)
          omega
    · rcases Option.map_eq_some'.mp hrem with ⟨l', hl', rfl⟩
      obtain ⟨hal, hhl⟩ := ihl hl hl'
      have hd : (heightOf l' - heightOf r).natAbs ≤ 2 := by omega
      obtain ⟨hA, hH⟩ := walkStep_spec (x := x) (h := h) hal hr hd
      refine ⟨hA, ?_⟩
      simp only [heightOf_node]
      obtain ⟨m1, m2, m3⟩ := max_facts (heightOf l) (heightOf r)
      obtain ⟨m4, m5, m6⟩ := max_facts (heightOf l') (heightOf r)
      omega
    · rcases Option.map_eq_some'.mp hrem with ⟨r', hr', rfl⟩
      obtain ⟨har, hhr⟩ := ihr hr hr'
      have hd : (heightOf l - heightOf r').natAbs ≤ 2 := by omega
      obtain ⟨hA, hH⟩ := walkStep_spec (x := x) (h := h) hl har hd
      refine ⟨hA, ?_⟩
      simp only [heightOf_node]
      obtain ⟨m1, m2, m3⟩ := max_facts (heightOf l) (heightOf r)
      obtain ⟨m4, m5, m6⟩ := max_facts (heightOf l) (heightOf r')
      omega

/-- The bundled state invariant maintained by every public mutation: the
cached-height/balance invariant at every node, a sorted in-order sequence
(the BST invariant), and the size field counting the traversal. -/
def TreeInv (t : AvlTree α) : Prop :=
  avlOk t.root = true ∧ (inorderTraverse t.root).Sorted (· ≤ ·) ∧
    t.size = (inorderTraverse t.root).length

theorem treeInv_new : TreeInv (NewAvlTree α) := by
  refine ⟨rfl, ?_, rfl⟩
  simp [NewAvlTree, inorderTraverse]

theorem treeInv_add {t : AvlTree α} (v : α) (ht : TreeInv t) :
    TreeInv (t.Add v) := by
  obtain ⟨h1, h2, h3⟩ := ht
  refine ⟨(insertAndRebalance_avlOk v h1).1, sorted_insertAndRebalance _ v h2, ?_⟩
  simp only [AvlTree.Add, length_inorderTraverse_insertAndRebalance]
  omega

theorem treeInv_remove {t : AvlTree α} (v : α) (ht : TreeInv t) :
    TreeInv (t.Remove v).2 := by
  obtain ⟨h1, h2, h3⟩ := ht
  rw [AvlTree.Remove]
  cases hrem : removeAndRebalance t.root v with
  | none => exact ⟨h1, h2, h3⟩
  | some r =>
    refine ⟨(removeAndRebalance_avlOk v h1 hrem).1,
      sorted_removeAndRebalance hrem h2, ?_⟩
    obtain ⟨A, B, hAB, hAB'⟩ := removeAndRebalance_inorder hrem
    simp only [hAB'] at *
    simp only [hAB, List.length_append, List.length_cons] at h3
    simp [List.length_append]
    omega

theorem treeInv_clear {t : AvlTree α} : TreeInv (t.Clear : AvlTree α) := by
  refine ⟨rfl, ?_, rfl⟩
  simp [AvlTree.Clear, inorderTraverse]

theorem reachable_inv {t : AvlTree α} (ht : Reachable t) : TreeInv t := by
  induction ht with
  | new => exact treeInv_new
  | add v _ ih => exact treeInv_add v ih
  | remove v _ ih => exact treeInv_remove v ih
  | clear _ ih => exact treeInv_clear

end AvlOps

section MinMax

variable {α : Type}

theorem minFrom_head? : ∀ (l : NodeT α) (x : α) (rest : List α),
    (inorderTraverse l ++ x :: rest).head? = some (minFrom x l)
  | .nil, x, rest => by simp [inorderTraverse, minFrom]
  | .node lx ll lr lh, x, rest => by
    have heq : inorderTraverse (NodeT.node lx ll lr lh) ++ x :: rest =
        inorderTraverse ll ++ lx :: (inorderTraverse lr ++ x :: rest) := by
      simp [inorderTraverse]
    rw [heq]
    have := minFrom_head? ll lx (inorderTraverse lr ++ x :: rest)
    rw [this]
    rfl

theorem maxFrom_getLast? : ∀ (r : NodeT α) (x : α) (pre : List α),
    (pre ++ x :: inorderTraverse r).getLast? = some (maxFrom x r)
  | .nil, x, pre => by
    simp [inorderTraverse, maxFrom]
  | .node rx rl rr rh, x, pre => by
    have heq : pre ++ x :: inorderTraverse (NodeT.node rx rl rr rh) =
        (pre ++ x :: inorderTraverse rl) ++ rx :: inorderTraverse rr := by
      simp [inorderTraverse]
    rw [heq]
    have := maxFrom_getLast? rr rx (pre ++ x :: inorderTraverse rl)
    rw [this]
    rfl

theorem getMin_eq_head? (t : AvlTree α) :
    t.GetMin = (inorderTraverse t.root).head? := by
  rw [AvlTree.GetMin]
  cases hroot : t.root with
  | nil => simp [inorderTraverse]
  | node x l r h =>
    rw [inorderTraverse, minFrom_head? l x (inorderTraverse r)]

theorem getMax_eq_getLast? (t : AvlTree α) :
    t.GetMax = (inorderTraverse t.root).getLast? := by
  rw [AvlTree.GetMax]
  cases hroot : t.root with
  | nil => simp [inorderTraverse]
  | node x l r h =>
    rw [inorderTraverse, maxFrom_getLast? r x (inorderTraverse l)]

theorem inorderTraverse_eq_nil {t : NodeT α} :
    inorderTraverse t = [] ↔ t = NodeT.nil := by
  cases t <;> simp [inorderTraverse]

end MinMax

section Iterator

variable {α : Type}

/-- The in-order remainder encoded by an iterator stack (top of stack first):
the top node's value and right subtree, then the suspended ancestors. -/
def stackInorder : List (NodeT α) → List α
  | [] => []
  | NodeT.nil :: rest => stackInorder rest
  | NodeT.node x _ r _ :: rest => x :: (inorderTraverse r ++ stackInorder rest)

theorem stackInorder_pushLeftSpine (t : NodeT α) (s : List (NodeT α)) :
    stackInorder (pushLeftSpine t s) = inorderTraverse t ++ stackInorder s := by
  induction t generalizing s with
  | nil => simp [pushLeftSpine, inorderTraverse]
  | node x l r h ihl ihr =>
    rw [pushLeftSpine, ihl]
    simp [stackInorder, inorderTraverse]

theorem pushLeftSpine_allNodes {t : NodeT α} {s : List (NodeT α)}
    (hs : ∀ u ∈ s, u ≠ NodeT.nil) :
    ∀ u ∈ pushLeftSpine t s, u ≠ NodeT.nil := by
  induction t generalizing s with
  | nil => simpa [pushLeftSpine] using hs
  | node x l r h ihl ihr =>
    rw [pushLeftSpine]
    refine ihl ?_
    intro u hu
    rcases List.mem_cons.mp hu with rfl | hu'
    · simp
    · exact hs u hu'

/-- The `right` field of a (non-nil) node, as read by the pop step of
`Next` (`curr := nextNode.right`). -/
def rightOf : {β : Type} → NodeT β → NodeT β
  | _, NodeT.nil => NodeT.nil
  | _, NodeT.node _ _ r _ => r

/-- The iterator-state invariant after `k` successful `Next` calls on a tree
that is not mutated meanwhile: the yield count, and (once the first call has
pushed the root's left spine) a stack encoding exactly the not-yet-yielded
suffix of the in-order sequence. -/
def IterInv (t : AvlTree α) (it : AvlTreeIterator α) (k : Nat) : Prop :=
  it.index = (k : Int) ∧
    ((k = 0 ∧ it.stack = []) ∨
      (1 ≤ k ∧ stackInorder it.stack = (inorderTraverse t.root).drop k ∧
        ∀ u ∈ it.stack, u ≠ NodeT.nil))

variable [Inhabited α] [LinearOrder α]

theorem iterNextPop_yield {t : AvlTree α} (hsz : t.size = (inorderTraverse t.root).length)
    {s : List (NodeT α)} {k : Nat}
    (hstack : stackInorder s = (inorderTraverse t.root).drop k)
    (hnodes : ∀ u ∈ s, u ≠ NodeT.nil)
    (hk : k < (inorderTraverse t.root).length) :
    iterNextPop t ⟨s, (k : Int)⟩ =
      some ((inorderTraverse t.root)[k], (k : Int),
        ⟨pushLeftSpine (rightOf (s.headD NodeT.nil)) s.tail, ((k : Int) + 1)⟩) ∧
      stackInorder (pushLeftSpine (rightOf (s.headD NodeT.nil)) s.tail) =
        (inorderTraverse t.root).drop (k + 1) ∧
      (∀ u ∈ pushLeftSpine (rightOf (s.headD NodeT.nil)) s.tail, u ≠ NodeT.nil) := by
  have hdrop : (inorderTraverse t.root).drop k ≠ [] := by
    intro hcon
    rw [List.drop_eq_nil_iff_le] at hcon
    omega
  cases s with
  | nil =>
    rw [← hstack] at hdrop
    simp [stackInorder] at hdrop
  | cons u rest =>
    cases u with
    | nil => exact absurd rfl (hnodes NodeT.nil (List.mem_cons_self _ _))
    | node ux ul ur uh =>
      rw [stackInorder] at hstack
      have hget : (inorderTraverse t.root)[k] = ux := by
        have h1 : ((inorderTraverse t.root).drop k).head? = some ux := by
          rw [← hstack]
          rfl
        rw [List.head?_drop, List.getElem?_eq_getElem hk] at h1
        exact Option.some.inj h1
      have hrest : stackInorder (pushLeftSpine ur rest) =
          (inorderTraverse t.root).drop (k + 1) := by
        rw [stackInorder_pushLeftSpine]
        have h2 : ((inorderTraverse t.root).drop k).tail =
            (inorderTraverse t.root).drop (k + 1) := List.tail_drop _ _
        rw [← h2, ← hstack]
        rfl
      have hrnodes : ∀ u ∈ pushLeftSpine ur rest, u ≠ NodeT.nil :=
        pushLeftSpine_allNodes (fun u hu => hnodes u (List.mem_cons_of_mem _ hu))
      refine ⟨?_, ?_, ?_⟩
      · rw [iterNextPop, if_neg]
        · simp only [hget]
          rfl
        · simp only [hsz]
          push_cast
          omega
      · simpa using hrest
      · simpa using hrnodes

/-- The state of the iterator after `k` calls of `Next` on a tree created by
`NewIterator` and not mutated meanwhile (the state is kept unchanged on the
modelled panic, which never happens on this library's trees). -/
def iterStateSeq (tree : AvlTree α) : Nat → AvlTreeIterator α
  | 0 => tree.NewIterator
  | k+1 =>
    match iterNext tree (iterStateSeq tree k) with
    | some p => p.2.2
    | none => iterStateSeq tree k

theorem iterNext_yield {t : AvlTree α}
    (hsz : t.size = ((inorderTraverse t.root).length : Int))
    {it : AvlTreeIterator α} {k : Nat} (hit : IterInv t it k)
    (hk : k < (inorderTraverse t.root).length) :
    ∃ it', iterNext t it = some ((inorderTraverse t.root)[k], (k : Int), it') ∧
      IterInv t it' (k + 1) := by
  obtain ⟨hidx, hcase⟩ := hit
  rcases hcase with ⟨hk0, hstk⟩ | ⟨hk1, hstk, hnodes⟩
  · subst hk0
    have hroot : t.root ≠ NodeT.nil := by
      intro hcon
      rw [hcon] at hk
      simp [inorderTraverse] at hk
    have hs1 : stackInorder (pushLeftSpine t.root ([] : List (NodeT α))) =
        (inorderTraverse t.root).drop 0 := by
      rw [stackInorder_pushLeftSpine]
      simp [stackInorder]
    have hs2 : ∀ u ∈ pushLeftSpine t.root ([] : List (NodeT α)), u ≠ NodeT.nil :=
      pushLeftSpine_allNodes (by simp)
    obtain ⟨hpop, hstk', hnodes'⟩ := iterNextPop_yield hsz hs1 hs2 hk
    have hcall : iterNext t it =
        iterNextPop t ⟨pushLeftSpine t.root [], ((0 : Nat) : Int)⟩ := by
      rw [iterNext, if_pos (by rw [hidx]; simp)]
      cases hr2 : t.root with
      | nil => exact absurd hr2 hroot
      | node rx rl rr rh =>
        show iterNextPop t ⟨pushLeftSpine (NodeT.node rx rl rr rh) it.stack,
            it.index⟩ =
          iterNextPop t ⟨pushLeftSpine (NodeT.node rx rl rr rh) [],
            ((0 : Nat) : Int)⟩
        rw [hstk, hidx]
    refine ⟨⟨pushLeftSpine (rightOf ((pushLeftSpine t.root []).headD NodeT.nil))
        (pushLeftSpine t.root []).tail, ((0 : Nat) : Int) + 1⟩, ?_, ?_, ?_⟩
    · rw [hcall, hpop]
    · show ((0 : Nat) : Int) + 1 = ((0 + 1 : Nat) : Int)
      omega
    · right
      refine ⟨by omega, by simpa using hstk', by simpa using hnodes'⟩
  · have hne : ¬ it.index = 0 := by
      rw [hidx]
      simp
      omega
    have hiteq : it = ⟨it.stack, ((k : Nat) : Int)⟩ := by
      cases it
      simp_all
    obtain ⟨hpop, hstk', hnodes'⟩ := iterNextPop_yield hsz hstk hnodes hk
    have hcall : iterNext t it = iterNextPop t ⟨it.stack, ((k : Nat) : Int)⟩ := by
      rw [iterNext, if_neg hne, ← hiteq]
    refine ⟨⟨pushLeftSpine (rightOf (it.stack.headD NodeT.nil)) it.stack.tail,
        ((k : Nat) : Int) + 1⟩, ?_, ?_, ?_⟩
    · rw [hcall, hpop]
    · show ((k : Nat) : Int) + 1 = ((k + 1 : Nat) : Int)
      omega
    · right
      refine ⟨by omega, by simpa using hstk', by simpa using hnodes'⟩

theorem iterNext_exhausted {t : AvlTree α}
    (hsz : t.size = ((inorderTraverse t.root).length : Int))
    {it : AvlTreeIterator α} {k : Nat} (hit : IterInv t it k)
    (hk : (inorderTraverse t.root).length ≤ k) :
    iterNext t it = some (default, -1, it) := by
  obtain ⟨hidx, hcase⟩ := hit
  rcases hcase with ⟨hk0, hstk⟩ | ⟨hk1, hstk, hnodes⟩
  · subst hk0
    have hlen : (inorderTraverse t.root).length = 0 := by omega
    have hroot : t.root = NodeT.nil :=
      inorderTraverse_eq_nil.mp (List.length_eq_zero.mp hlen)
    rw [iterNext, if_pos (by rw [hidx]; simp), hroot]
  · have hne : ¬ it.index = 0 := by
      rw [hidx]
      simp
      omega
    rw [iterNext, if_neg hne, iterNextPop, if_pos]
    · rw [hsz, hidx]
      push_cast
      omega

theorem iterStateSeq_inv {t : AvlTree α}
    (hsz : t.size = ((inorderTraverse t.root).length : Int)) :
    ∀ k, IterInv t (iterStateSeq t k)
      (min k (inorderTraverse t.root).length) := by
  intro k
  induction k with
  | zero =>
    refine ⟨by simp [iterStateSeq, AvlTree.NewIterator], Or.inl ⟨by simp, rfl⟩⟩
  | succ k ih =>
    by_cases hk : k < (inorderTraverse t.root).length
    · have hmk : min k (inorderTraverse t.root).length = k := by omega
      rw [hmk] at ih
      obtain ⟨it', hnext, hinv⟩ := iterNext_yield hsz ih hk
      have hstep : iterStateSeq t (k+1) = it' := by
        rw [iterStateSeq, hnext]
      rw [hstep]
      have hmk1 : min (k+1) (inorderTraverse t.root).length = k + 1 := by omega
      rw [hmk1]
      exact hinv
    · have hmk : min k (inorderTraverse t.root).length =
          (inorderTraverse t.root).length := by omega
      rw [hmk] at ih
      have hnext := iterNext_exhausted hsz ih (le_refl _)
      have hstep : iterStateSeq t (k+1) = iterStateSeq t k := by
        rw [iterStateSeq, hnext]
      rw [hstep]
      have hmk1 : min (k+1) (inorderTraverse t.root).length =
          (inorderTraverse t.root).length := by omega
      rw [hmk1]
      exact ih

theorem iterStateSeq_yield {t : AvlTree α}
    (hsz : t.size = ((inorderTraverse t.root).length : Int))
    (k : Nat) (hk : k < (inorderTraverse t.root).length) :
    iterNext t (iterStateSeq t k) =
      some ((inorderTraverse t.root)[k], (k : Int), iterStateSeq t (k+1)) := by
  have ih := iterStateSeq_inv hsz k
  rw [min_eq_left (by omega)] at ih
  obtain ⟨it', hnext, _⟩ := iterNext_yield hsz ih hk
  rw [hnext, iterStateSeq, hnext]

theorem iterStateSeq_exhausted {t : AvlTree α}
    (hsz : t.size = ((inorderTraverse t.root).length : Int))
    (k : Nat) (hk : (inorderTraverse t.root).length ≤ k) :
    iterNext t (iterStateSeq t k) = some (default, -1, iterStateSeq t k) ∧
      iterStateSeq t (k+1) = iterStateSeq t k := by
  have ih := iterStateSeq_inv hsz k
  rw [min_eq_right (by omega)] at ih
  have hnext := iterNext_exhausted (k := (inorderTraverse t.root).length)
    hsz ih (le_refl _)
  exact ⟨hnext, by rw [iterStateSeq, hnext]⟩

end Iterator

section RealHeight

variable {α : Type}

/-- The actual height of the tree (absent tree: -1), independent of the
cached fields. -/
def realHeight : NodeT α → Int
  | .nil => -1
  | .node _ l r _ => max (realHeight l) (realHeight r) + 1

theorem avlOk_realHeight {t : NodeT α} (ht : avlOk t = true) :
    heightOf t = realHeight t := by
  induction t with
  | nil => rfl
  | node x l r h ihl ihr =>
    rw [avlOk_node] at ht
    obtain ⟨hl, hr, hh, _⟩ := ht
    rw [heightOf_node, realHeight, ← ihl hl, ← ihr hr, hh]

end RealHeight

section SortedLast

variable {α : Type} [LinearOrder α]

theorem getLast?_mem_of_sorted {l : List α} {m : α} (hm : l.getLast? = some m) :
    m ∈ l := by
  obtain ⟨hne, heq⟩ := List.mem_getLast?_eq_getLast (show m ∈ l.getLast? from hm)
  rw [heq]
  exact List.getLast_mem hne

theorem le_getLast?_of_sorted : ∀ {l : List α}, l.Sorted (· ≤ ·) →
    ∀ {m : α}, l.getLast? = some m → ∀ y ∈ l, y ≤ m := by
  intro l
  induction l with
  | nil =>
    intro _ m hm
    simp at hm
  | cons a l' ih =>
    intro hs m hm y hy
    cases l' with
    | nil =>
      simp at hm
      rcases List.mem_singleton.mp hy with rfl
      exact le_of_eq hm
    | cons b l'' =>
      rw [List.getLast?_cons_cons] at hm
      rw [List.sorted_cons] at hs
      obtain ⟨ha, hs'⟩ := hs
      rcases List.mem_cons.mp hy with rfl | hy'
      · exact le_trans (ha b (List.mem_cons_self _ _))
          (ih hs' hm b (List.mem_cons_self _ _))
      · exact ih hs' hm y hy'

end SortedLast

section FoldlAdd

variable {α : Type} [LinearOrder α]

theorem reachable_foldl_add (vs : List α) {t : AvlTree α} (ht : Reachable t) :
    Reachable (vs.foldl AvlTree.Add t) := by
  induction vs generalizing t with
  | nil => exact ht
  | cons v vs ih => exact ih (Reachable.add v ht)

theorem foldl_add_perm (vs : List α) (t : AvlTree α) :
    List.Perm (inorderTraverse ((vs.foldl AvlTree.Add t).root))
      (vs ++ inorderTraverse t.root) := by
  induction vs generalizing t with
  | nil => simp
  | cons v vs ih =>
    have h1 := ih (t.Add v)
    have h2 : List.Perm (vs ++ inorderTraverse ((t.Add v).root))
        (vs ++ (v :: inorderTraverse t.root)) :=
      List.Perm.append_left vs (inorderTraverse_insertAndRebalance_perm t.root v)
    exact (h1.trans h2).trans List.perm_middle

end FoldlAdd

section ClaimC8Defs

variable {α : Type} [LinearOrder α]

/-- Modelled from the claim's words (spec section 4.4, two-children case, as
read by claim C8): the raw successor splice with no rebalancing applied
inside the removed node's right subtree — the successor's right child moves
up into the successor's old slot, nothing else on that path changes. -/
def rawExtractMin (x : α) (l r : NodeT α) (h : Int) : α × Int × NodeT α :=
  match l with
  | .nil => (x, h, r)
  | .node lx ll lr lh =>
    let p := rawExtractMin lx ll lr lh
    (p.1, p.2.1, NodeT.node x p.2.2 r h)

/-- Modelled from the claim's words: `Remove` in which, for a node with two
children, "the upward rebalance walk starts at the successor's new parent"
— i.e. the walk visits only the ancestors strictly above the node where the
successor ends up, so neither the spine below the successor's new position
nor the spliced successor itself is rebalanced. -/
def removeC8Claim : NodeT α → α → Option (NodeT α)
  | .nil, _ => none
  | .node x l r h, v =>
    if x = v then
      match l, r with
      | .node lx ll lr lh, .node rx rl rr rh =>
        let p := rawExtractMin rx rl rr rh
        some (NodeT.node p.1 (.node lx ll lr lh) p.2.2 p.2.1)
      | .nil, _ => some r
      | _, .nil => some l
    else if v < x then
      (removeC8Claim l v).map (fun l' => walkStep (.node x l' r h))
    else
      (removeC8Claim r v).map (fun r' => walkStep (.node x l r' h))

/-- The left spine of a subtree, top-down: each node's value, right child
and cached height along the path that `Remove` follows to locate the
in-order successor (right once — done by the caller — then left as far as
possible). -/
def leftSpine : NodeT α → List (α × NodeT α × Int)
  | .nil => []
  | .node x l r h => (x, r, h) :: leftSpine l

/-- Reassemble the left spine above the extracted successor, applying one
visit of the upward rebalance walk at each node, bottom-up — the walk that
starts at the successor's former parent. -/
def rebuildWalk : List (α × NodeT α × Int) → NodeT α → NodeT α
  | [], b => b
  | (x, r, h) :: rest, b => walkStep (NodeT.node x (rebuildWalk rest b) r h)

theorem leftSpine_ne_nil (x : α) (l r : NodeT α) (h : Int) :
    leftSpine (NodeT.node x l r h) ≠ [] := by
  simp [leftSpine]

theorem extractMin_eq_spine :
    ∀ (l : NodeT α) (x : α) (r : NodeT α) (h : Int)
      (init : List (α × NodeT α × Int)) (sv : α) (sr : NodeT α) (sh : Int),
      leftSpine (NodeT.node x l r h) = init ++ [(sv, sr, sh)] →
      extractMin x l r h = (sv, sh, rebuildWalk init sr) := by
  intro l
  induction l with
  | nil =>
    intro x r h init sv sr sh hspine
    rw [leftSpine, leftSpine] at hspine
    cases init with
    | nil =>
      simp only [List.nil_append, List.cons.injEq] at hspine
      obtain ⟨heq, -⟩ := hspine
      obtain ⟨rfl, rfl, rfl⟩ := Prod.mk.injEq .. ▸ heq
      rfl
    | cons i0 init' =>
      simp at hspine
  | node lx ll lr lh ihl ihr =>
    intro x r h init sv sr sh hspine
    rw [leftSpine] at hspine
    cases init with
    | nil =>
      exfalso
      simp only [List.nil_append, List.cons.injEq] at hspine
      exact leftSpine_ne_nil lx ll lr lh hspine.2
    | cons i0 init' =>
      simp only [List.cons_append, List.cons.injEq] at hspine
      obtain ⟨rfl, hspine'⟩ := hspine
      rw [extractMin_node, ihl lx lr lh init' sv sr sh hspine']
      rfl

end ClaimC8Defs

section Claims

variable {α : Type} [LinearOrder α]

/-- C1: on every tree built from `NewAvlTree` by any sequence of public
operations, after every `Add`, `Remove` or `Clear` call returns, every
node's cached `height` field equals `max(height(left), height(right)) + 1`
(an absent child's height being -1) and every node's balance factor has
magnitude at most 1 (`avlOk` is exactly this recursive conjunction over the
cached fields); consequently the cached height is the tree's actual
height. -/
theorem C1_avl_balance {t : AvlTree α} (ht : Reachable t) :
    avlOk t.root = true ∧ heightOf t.root = realHeight t.root := by
  have h1 := (reachable_inv ht).1
  exact ⟨h1, avlOk_realHeight h1⟩

/-- Witness for C1 at the concrete insertion sequence 1, 2, 3 (which forces
a rotation). -/
theorem C1_avl_balance_witness :
    avlOk ((((NewAvlTree Int).Add 1).Add 2).Add 3).root = true ∧
      heightOf ((((NewAvlTree Int).Add 1).Add 2).Add 3).root =
        realHeight ((((NewAvlTree Int).Add 1).Add 2).Add 3).root :=
  C1_avl_balance (Reachable.add 3 (Reachable.add 2 (Reachable.add 1 Reachable.new)))

/-- C2: for every sequence of values inserted with `Add` into a tree created
empty, `InorderTraverse` returns the ascending sorted arrangement of exactly
the inserted multiset.  (The tie-break of the claim — equal values are
routed to the right, after existing equal values — is the `else` branch of
`insertAndRebalance`, exactly as in the source's `insertNode`; it fixes the
position of the new node among equal values, which the sorted sequence of
values cannot distinguish.) -/
theorem C2_bst_order (vs : List α) :
    List.Perm (inorderTraverse ((vs.foldl AvlTree.Add (NewAvlTree α)).root)) vs ∧
      (inorderTraverse ((vs.foldl AvlTree.Add (NewAvlTree α)).root)).Sorted
        (· ≤ ·) := by
  constructor
  · simpa [NewAvlTree, inorderTraverse] using foldl_add_perm vs (NewAvlTree α)
  · exact (reachable_inv (reachable_foldl_add vs Reachable.new)).2.1

/-- C3: at every reachable state, `GetSize` equals the number of elements of
a full in-order traversal; `Add` increments it by exactly one (duplicates
included — `Add` takes no branch on prior membership), a `Remove` returning
true decrements it by one, a `Remove` returning false leaves the whole tree
state unchanged, and `Clear` resets it to 0. -/
theorem C3_size_invariant {t : AvlTree α} (ht : Reachable t) :
    t.GetSize = ((inorderTraverse t.root).length : Int) ∧
      (∀ v, (t.Add v).GetSize = t.GetSize + 1) ∧
      (∀ v, (t.Remove v).1 = true → ((t.Remove v).2).GetSize = t.GetSize - 1) ∧
      (∀ v, (t.Remove v).1 = false → (t.Remove v).2 = t) ∧
      (t.Clear).GetSize = 0 := by
  refine ⟨(reachable_inv ht).2.2, fun v => rfl, fun v => ?_, fun v => ?_, rfl⟩
  · rw [AvlTree.Remove]
    cases hrem : removeAndRebalance t.root v with
    | none => simp
    | some r => simp [AvlTree.GetSize]
  · rw [AvlTree.Remove]
    cases hrem : removeAndRebalance t.root v with
    | none => simp
    | some r => simp

/-- Witness for C3 at a two-element tree. -/
theorem C3_size_invariant_witness :
    (((NewAvlTree Int).Add 1).Add 2).GetSize =
        ((inorderTraverse (((NewAvlTree Int).Add 1).Add 2).root).length : Int) ∧
      (∀ v, ((((NewAvlTree Int).Add 1).Add 2).Add v).GetSize =
        (((NewAvlTree Int).Add 1).Add 2).GetSize + 1) ∧
      (∀ v, ((((NewAvlTree Int).Add 1).Add 2).Remove v).1 = true →
        (((((NewAvlTree Int).Add 1).Add 2).Remove v).2).GetSize =
          (((NewAvlTree Int).Add 1).Add 2).GetSize - 1) ∧
      (∀ v, ((((NewAvlTree Int).Add 1).Add 2).Remove v).1 = false →
        ((((NewAvlTree Int).Add 1).Add 2).Remove v).2 =
          ((NewAvlTree Int).Add 1).Add 2) ∧
      ((((NewAvlTree Int).Add 1).Add 2).Clear).GetSize = 0 :=
  C3_size_invariant (Reachable.add 2 (Reachable.add 1 Reachable.new))

/-- C5: `GetMin` (resp. `GetMax`) reports the EmptyTree error (modelled
`none`) iff the tree has zero elements; on a non-empty tree it returns,
without error, the minimum (resp. maximum) stored value — `GetMin`/`GetMax`
are the all-left/all-right descents from the root by definition. -/
theorem C5_minmax_error {t : AvlTree α} (ht : Reachable t) :
    (t.GetMin = none ↔ t.GetSize = 0) ∧ (t.GetMax = none ↔ t.GetSize = 0) ∧
      (∀ m, t.GetMin = some m → m ∈ inorderTraverse t.root ∧
        ∀ y ∈ inorderTraverse t.root, m ≤ y) ∧
      (∀ m, t.GetMax = some m → m ∈ inorderTraverse t.root ∧
        ∀ y ∈ inorderTraverse t.root, y ≤ m) := by
  obtain ⟨hA, hS, hL⟩ := reachable_inv ht
  have hsz : t.GetSize = 0 ↔ inorderTraverse t.root = [] := by
    rw [AvlTree.GetSize, hL]
    constructor
    · intro h0
      exact List.length_eq_zero.mp (by exact_mod_cast h0)
    · intro h0
      rw [h0]
      rfl
  refine ⟨?_, ?_, ?_, ?_⟩
  · rw [getMin_eq_head?, List.head?_eq_none_iff, hsz]
  · rw [getMax_eq_getLast?, List.getLast?_eq_none_iff, hsz]
  · intro m hm
    rw [getMin_eq_head?] at hm
    cases hlist : inorderTraverse t.root with
    | nil => rw [hlist] at hm; simp at hm
    | cons a tl =>
      rw [hlist] at hm
      simp only [List.head?_cons, Option.some.injEq] at hm
      subst hm
      rw [hlist] at hS
      rw [List.sorted_cons] at hS
      refine ⟨List.mem_cons_self _ _, ?_⟩
      intro y hy
      rcases List.mem_cons.mp hy with rfl | hy'
      · exact le_refl _
      · exact hS.1 y hy'
  · intro m hm
    rw [getMax_eq_getLast?] at hm
    exact ⟨getLast?_mem_of_sorted hm, le_getLast?_of_sorted hS hm⟩

/-- Witness for C5: the empty tree errors on both queries, and the tree
{1, 2} answers 1 and 2. -/
theorem C5_minmax_error_witness :
    (((NewAvlTree Int).Add 1).Add 2).GetMin = some 1 ∧
      (((NewAvlTree Int).Add 1).Add 2).GetMax = some 2 ∧
      ((NewAvlTree Int).GetMin = none ↔ (NewAvlTree Int).GetSize = 0) ∧
      (1 : Int) ∈ inorderTraverse (((NewAvlTree Int).Add 1).Add 2).root := by
  refine ⟨by decide, by decide, (C5_minmax_error Reachable.new).1, ?_⟩
  exact ((C5_minmax_error (Reachable.add 2 (Reachable.add 1 Reachable.new))).2.2.1
    1 (by decide)).1

/-- C6: `Remove(v)` returns true iff `v` is stored in the tree; on false the
tree state is literally unchanged; on true exactly one occurrence of `v` is
removed (the in-order sequence loses one `v` and nothing else); and the
height/balance and BST (sorted traversal) invariants hold afterwards either
way. -/
theorem C6_remove_semantics {t : AvlTree α} (ht : Reachable t) (v : α) :
    ((t.Remove v).1 = true ↔ v ∈ inorderTraverse t.root) ∧
      ((t.Remove v).1 = false → (t.Remove v).2 = t) ∧
      ((t.Remove v).1 = true →
        List.Perm (inorderTraverse t.root)
          (v :: inorderTraverse ((t.Remove v).2.root))) ∧
      avlOk ((t.Remove v).2.root) = true ∧
      (inorderTraverse ((t.Remove v).2.root)).Sorted (· ≤ ·) := by
  obtain ⟨hA, hS, hL⟩ := reachable_inv ht
  have hiff : (removeAndRebalance t.root v).isSome = true ↔
      v ∈ inorderTraverse t.root := by
    rw [removeAndRebalance_isSome]
    exact getNodeByValue_isSome_iff t.root v hS
  rw [AvlTree.Remove]
  cases hrem : removeAndRebalance t.root v with
  | none =>
    rw [hrem] at hiff
    simp only [Option.isSome_none] at hiff
    refine ⟨?_, fun _ => rfl, by simp, hA, hS⟩
    simp only [Bool.false_eq_true, false_iff]
    exact fun hmem => by simpa using hiff.mpr hmem
  | some r =>
    rw [hrem] at hiff
    simp only [Option.isSome_some] at hiff
    obtain ⟨A, B, hAB, hAB'⟩ := removeAndRebalance_inorder hrem
    refine ⟨by simpa using hiff, by simp, ?_, ?_, ?_⟩
    · intro _
      rw [hAB, hAB']
      exact List.perm_middle
    · exact (removeAndRebalance_avlOk v hA hrem).1
    · exact sorted_removeAndRebalance hrem hS

/-- Witness for C6 on the tree {10, 20, 30, 40, 50} with `Remove 30` (the
spec's own scenario). -/
theorem C6_remove_semantics_witness :
    let t : AvlTree Int :=
      (((((NewAvlTree Int).Add 10).Add 20).Add 30).Add 40).Add 50
    ((t.Remove 30).1 = true ↔ (30 : Int) ∈ inorderTraverse t.root) ∧
      ((t.Remove 30).1 = false → (t.Remove 30).2 = t) ∧
      ((t.Remove 30).1 = true →
        List.Perm (inorderTraverse t.root)
          (30 :: inorderTraverse ((t.Remove 30).2.root))) ∧
      avlOk ((t.Remove 30).2.root) = true ∧
      (inorderTraverse ((t.Remove 30).2.root)).Sorted (· ≤ ·) :=
  C6_remove_semantics (Reachable.add 50 (Reachable.add 40 (Reachable.add 30
    (Reachable.add 20 (Reachable.add 10 Reachable.new))))) 30

/-- C4: on a tree that is not mutated during iteration, the iterator from
`NewIterator` yields, call by call, exactly the `InorderTraverse` sequence
paired with the ascending 0-based indices, and afterwards (from the
`Size()`-th call on — on an empty tree that is already the first call)
returns the element type's zero value with index -1. -/
theorem C4_iterator_agreement [Inhabited α] {t : AvlTree α} (ht : Reachable t) :
    iterStateSeq t 0 = t.NewIterator ∧
      (∀ k (hk : k < (inorderTraverse t.root).length),
        iterNext t (iterStateSeq t k) =
          some ((inorderTraverse t.root)[k], (k : Int), iterStateSeq t (k+1))) ∧
      (∀ k, (inorderTraverse t.root).length ≤ k →
        iterNext t (iterStateSeq t k) = some (default, -1, iterStateSeq t k)) := by
  have hsz := (reachable_inv ht).2.2
  exact ⟨rfl, fun k hk => iterStateSeq_yield hsz k hk,
    fun k hk => (iterStateSeq_exhausted hsz k hk).1⟩

/-- Witness for C4 on the tree {1, 2} and on the empty tree (whose first
call reports -1 through the same theorem at k = 0). -/
theorem C4_iterator_agreement_witness :
    (iterStateSeq (((NewAvlTree Int).Add 1).Add 2) 0 =
        (((NewAvlTree Int).Add 1).Add 2).NewIterator ∧
      (∀ k (hk : k <
          (inorderTraverse (((NewAvlTree Int).Add 1).Add 2).root).length),
        iterNext (((NewAvlTree Int).Add 1).Add 2)
            (iterStateSeq (((NewAvlTree Int).Add 1).Add 2) k) =
          some ((inorderTraverse (((NewAvlTree Int).Add 1).Add 2).root)[k],
            (k : Int), iterStateSeq (((NewAvlTree Int).Add 1).Add 2) (k+1))) ∧
      (∀ k, (inorderTraverse (((NewAvlTree Int).Add 1).Add 2).root).length ≤ k →
        iterNext (((NewAvlTree Int).Add 1).Add 2)
            (iterStateSeq (((NewAvlTree Int).Add 1).Add 2) k) =
          some (default, -1, iterStateSeq (((NewAvlTree Int).Add 1).Add 2) k))) ∧
      (∀ k, (inorderTraverse (NewAvlTree Int).root).length ≤ k →
        iterNext (NewAvlTree Int) (iterStateSeq (NewAvlTree Int) k) =
          some (default, -1, iterStateSeq (NewAvlTree Int) k)) :=
  ⟨C4_iterator_agreement (Reachable.add 2 (Reachable.add 1 Reachable.new)),
    (C4_iterator_agreement Reachable.new).2.2⟩

/-- C10: on a tree built by public operations and not mutated while
iterating, `Next` never accesses an index outside its stack (the modelled
panic `none` is never returned at any reachable iterator state), and once
the iterator is exhausted every further call returns the zero value with
index -1 and leaves the iterator state unchanged. -/
theorem C10_iterator_safety [Inhabited α] {t : AvlTree α} (ht : Reachable t) :
    (∀ k, iterNext t (iterStateSeq t k) ≠ none) ∧
      (∀ k, (inorderTraverse t.root).length ≤ k →
        iterNext t (iterStateSeq t k) = some (default, -1, iterStateSeq t k) ∧
          iterStateSeq t (k+1) = iterStateSeq t k) := by
  have hsz := (reachable_inv ht).2.2
  constructor
  · intro k
    by_cases hk : k < (inorderTraverse t.root).length
    · rw [iterStateSeq_yield hsz k hk]
      simp
    · rw [(iterStateSeq_exhausted hsz k (by omega)).1]
      simp
  · exact fun k hk => iterStateSeq_exhausted hsz k hk

/-- Witness for C10 on the tree {1, 2}. -/
theorem C10_iterator_safety_witness :
    (∀ k, iterNext (((NewAvlTree Int).Add 1).Add 2)
        (iterStateSeq (((NewAvlTree Int).Add 1).Add 2) k) ≠ none) ∧
      (∀ k, (inorderTraverse (((NewAvlTree Int).Add 1).Add 2).root).length ≤ k →
        iterNext (((NewAvlTree Int).Add 1).Add 2)
            (iterStateSeq (((NewAvlTree Int).Add 1).Add 2) k) =
          some (default, -1, iterStateSeq (((NewAvlTree Int).Add 1).Add 2) k) ∧
          iterStateSeq (((NewAvlTree Int).Add 1).Add 2) (k+1) =
            iterStateSeq (((NewAvlTree Int).Add 1).Add 2) k) :=
  C10_iterator_safety (Reachable.add 2 (Reachable.add 1 Reachable.new))

/-- C7 as stated is false on trees that already contain the value: on the
reachable tree {5}, `Add 5` then `Remove 5` removes only one of the two
copies, so `Contains 5` is still true where the claim requires false.
(`Size` does return to its pre-`Add` value.) -/
theorem C7_counterexample :
    Reachable ((NewAvlTree Int).Add 5) ∧
      (((((NewAvlTree Int).Add 5).Add 5).Remove 5).2).Contains 5 = true :=
  ⟨Reachable.add 5 Reachable.new, by decide⟩

/-- C7 amended: for every reachable tree and every value `v` the tree does
not already contain, `Add v` followed by `Remove v` leaves `Contains v`
false and `Size` equal to its value from before the `Add`. -/
theorem C7_roundtrip_amended {t : AvlTree α} (ht : Reachable t) (v : α)
    (hnot : t.Contains v = false) :
    (((t.Add v).Remove v).2).Contains v = false ∧
      (((t.Add v).Remove v).2).GetSize = t.GetSize := by
  obtain ⟨hA, hS, hL⟩ := reachable_inv ht
  have hmem : v ∉ inorderTraverse t.root := by
    intro hmem
    have h1 := (getNodeByValue_isSome_iff t.root v hS).mpr hmem
    rw [AvlTree.Contains] at hnot
    rw [h1] at hnot
    exact Bool.true_eq_false.mp hnot
  have ht1 : Reachable (t.Add v) := Reachable.add v ht
  obtain ⟨hA1, hS1, hL1⟩ := reachable_inv ht1
  have hperm1 : List.Perm (inorderTraverse (t.Add v).root)
      (v :: inorderTraverse t.root) :=
    inorderTraverse_insertAndRebalance_perm t.root v
  have hmem1 : v ∈ inorderTraverse (t.Add v).root :=
    hperm1.mem_iff.mpr (List.mem_cons_self _ _)
  have hsome : (removeAndRebalance (t.Add v).root v).isSome = true := by
    rw [removeAndRebalance_isSome]
    exact (getNodeByValue_isSome_iff _ v hS1).mpr hmem1
  rw [AvlTree.Remove]
  cases hrem : removeAndRebalance (t.Add v).root v with
  | none =>
    rw [hrem] at hsome
    simp at hsome
  | some r =>
    obtain ⟨A, B, hAB, hAB'⟩ := removeAndRebalance_inorder hrem
    have hS2 : (inorderTraverse r).Sorted (· ≤ ·) :=
      sorted_removeAndRebalance hrem hS1
    have hcount : List.count v (inorderTraverse r) = 0 := by
      have hc1 : List.count v (inorderTraverse (t.Add v).root) =
          List.count v (inorderTraverse t.root) + 1 := by
        rw [hperm1.count_eq]
        simp
      have hc0 : List.count v (inorderTraverse t.root) = 0 :=
        List.count_eq_zero.mpr hmem
      rw [hAB] at hc1
      rw [hAB']
      simp only [List.count_append, List.count_cons_self] at hc1 ⊢
      omega
    have hmem2 : v ∉ inorderTraverse r := List.count_eq_zero.mp hcount
    constructor
    · rw [AvlTree.Contains]
      by_cases hgn : (getNodeByValue r v).isSome = true
      · exact absurd ((getNodeByValue_isSome_iff r v hS2).mp hgn) hmem2
      · simpa using hgn
    · simp [AvlTree.GetSize, AvlTree.Add]

/-- Witness for the amended C7: starting from the empty tree with value 5. -/
theorem C7_roundtrip_amended_witness :
    (NewAvlTree Int).Contains 5 = false ∧
      (((((NewAvlTree Int).Add 5).Remove 5).2).Contains 5 = false ∧
        ((((NewAvlTree Int).Add 5).Remove 5).2).GetSize =
          (NewAvlTree Int).GetSize) :=
  ⟨by decide, C7_roundtrip_amended Reachable.new 5 (by decide)⟩

/-- C8 as stated is false: its walk is said to start at the successor's new
parent, but the code starts it lower.  On the reachable tree {1, 2, 3}
(root 2, children 1 and 3), `Remove 2` finds a two-children node whose
successor 3 is the direct right child; the code's walk starts at the
successor itself and recomputes its height to 1, whereas a walk starting at
the successor's new parent (nil — the successor becomes the root) would
touch nothing, leaving the successor's stale cached height 0.  The two
removal functions therefore disagree at this input. -/
theorem C8_counterexample :
    removeC8Claim ((((NewAvlTree Int).Add 1).Add 2).Add 3).root 2 ≠
        removeAndRebalance ((((NewAvlTree Int).Add 1).Add 2).Add 3).root 2 ∧
      removeC8Claim ((((NewAvlTree Int).Add 1).Add 2).Add 3).root 2 =
        some (NodeT.node 3 (NodeT.node 1 NodeT.nil NodeT.nil 0) NodeT.nil 0) ∧
      removeAndRebalance ((((NewAvlTree Int).Add 1).Add 2).Add 3).root 2 =
        some (NodeT.node 3 (NodeT.node 1 NodeT.nil NodeT.nil 0) NodeT.nil 1) :=
  ⟨by decide, by decide, by decide⟩

/-- C8 amended: when `Remove` deletes a node with two children, the in-order
successor — the bottom of the left spine of the right child, carrying its
value and its own (stale) cached height — physically replaces the removed
node and takes over its left subtree; the successor's right child moves up
into the successor's old slot; and the upward rebalance walk visits exactly
the former left-spine ancestors of the successor bottom-up (starting at the
successor's former parent) and then the spliced node itself — equivalently,
it starts at the successor's former parent, or at the successor in its new
position when the successor was the removed node's direct right child
(`init = []`). -/
theorem C8_two_children_splice (x v lx rx : α) (ll lr rl rr : NodeT α)
    (lh rh h : Int) (init : List (α × NodeT α × Int)) (sv : α) (sr : NodeT α)
    (sh : Int) (hx : x = v)
    (hspine : leftSpine (NodeT.node rx rl rr rh) = init ++ [(sv, sr, sh)]) :
    removeAndRebalance (NodeT.node x (NodeT.node lx ll lr lh)
        (NodeT.node rx rl rr rh) h) v =
      some (walkStep (NodeT.node sv (NodeT.node lx ll lr lh)
        (rebuildWalk init sr) sh)) := by
  have hext := extractMin_eq_spine rl rx rr rh init sv sr sh hspine
  subst hx
  rw [removeAndRebalance, if_pos rfl]
  show some (walkStep (NodeT.node (extractMin rx rl rr rh).1
      (NodeT.node lx ll lr lh) (extractMin rx rl rr rh).2.2
      (extractMin rx rl rr rh).2.1)) = _
  rw [hext]

/-- Witness for the amended C8 at the tree with root 2 and children 1, 3
(direct-right-child case: `init = []`, the walk starts at the spliced
successor itself). -/
theorem C8_two_children_splice_witness :
    removeAndRebalance (NodeT.node (2 : Int)
        (NodeT.node 1 NodeT.nil NodeT.nil 0)
        (NodeT.node 3 NodeT.nil NodeT.nil 0) 1) 2 =
      some (walkStep (NodeT.node 3 (NodeT.node 1 NodeT.nil NodeT.nil 0)
        (rebuildWalk [] NodeT.nil) 0)) :=
  C8_two_children_splice 2 2 1 3 NodeT.nil NodeT.nil NodeT.nil NodeT.nil
    0 0 1 [] 3 NodeT.nil 0 rfl (by decide)

end Claims

section ParentModel

variable {α : Type}

/-- The pointer-level model of a Go `*Node[T]` for the parent-bookkeeping
claim: each node carries its heap address (`addr`, allocation order) and its
`parent` back-reference stored as the parent's address (`none` models a nil
parent pointer).  Every pointer assignment of the Go code is mirrored as a
field update on this tree. -/
inductive PNode (α : Type) where
  | nil : PNode α
  | node (addr : Nat) (parent : Option Nat) (value : α)
      (left : PNode α) (right : PNode α) (height : Int) : PNode α
deriving DecidableEq, Repr

/-- Height read with the nil guard, as in `updateHeight`/`balanceFactor`. -/
def pheightOf : PNode α → Int
  | .nil => -1
  | .node _ _ _ _ _ h => h

/-- `node.balanceFactor()` on the pointer-level model. -/
def pbalanceFactor : PNode α → Int
  | .nil => 0
  | .node _ _ _ l r _ => pheightOf r - pheightOf l

/-- `node.updateHeight()` on the pointer-level model. -/
def updateHeightP : PNode α → PNode α
  | .nil => .nil
  | .node a p x l r _ => .node a p x l r (max (pheightOf l) (pheightOf r) + 1)

/-- `x.parent = e`: the parent-pointer assignments of the Go code, guarded
against nil exactly as the code guards them (assigning to the parent field
of a nil pointer never happens; modelled as a no-op). -/
def setParentP : PNode α → Option Nat → PNode α
  | .nil, _ => .nil
  | .node a _ x l r h, e => .node a e x l r h

/-- `node.rotateLeft()` with its parent-pointer assignments:
`node.right = child.left; if node.right != nil { node.right.parent = node };
child.left = node; node.parent = child`, then the two height updates.  The
new subtree root keeps its stale parent field; the caller (`rebalance`)
overwrites it. -/
def rotateLeftP : PNode α → PNode α
  | .node a _ x l (.node ca cp cx cl cr ch) h =>
    updateHeightP (.node ca cp cx
      (updateHeightP (.node a (some ca) x l (setParentP cl (some a)) h)) cr ch)
  | t => t

/-- `node.rotateRight()`, mirror image. -/
def rotateRightP : PNode α → PNode α
  | .node a _ x (.node ca cp cx cl cr ch) r h =>
    updateHeightP (.node ca cp cx cl
      (updateHeightP (.node a (some ca) x (setParentP cr (some a)) r h)) ch)
  | t => t

/-- `tree.rebalance(node)` on the pointer-level model:
`newSubtreeRoot.parent = nodeParent` is the final `setParentP` with the
node's own stored parent; the inner double-rotation step performs
`node.left = node.left.rotateLeft(); node.left.parent = node` (and the
mirror). -/
def rebalanceP : PNode α → PNode α
  | .nil => .nil
  | .node a p x l r h =>
    let bf := pbalanceFactor (.node a p x l r h)
    if bf.natAbs ≤ 1 then updateHeightP (.node a p x l r h)
    else if bf < -1 then
      let l' := if 0 < pbalanceFactor l then setParentP (rotateLeftP l) (some a)
                else l
      setParentP (rotateRightP (.node a p x l' r h)) p
    else
      let r' := if pbalanceFactor r < 0 then setParentP (rotateRightP r) (some a)
                else r
      setParentP (rotateLeftP (.node a p x l r' h)) p

/-- One visit of the upward walk on the pointer-level model (see
`walkStep`). -/
def walkStepP (t : PNode α) : PNode α :=
  if 1 < (pbalanceFactor t).natAbs then rebalanceP (rebalanceP t)
  else rebalanceP t

/-- `tree.Add(value)` on the pointer-level model: the new node is allocated
at the fresh address with `newNode.parent = parent` (the attach point, or
`none` for a new root), then the upward walk runs. -/
def insertP [LinearOrder α] : PNode α → α → Option Nat → Nat → PNode α
  | .nil, v, pa, fresh => .node fresh pa v .nil .nil 0
  | .node a p x l r h, v, _, fresh =>
    if v < x then walkStepP (.node a p x (insertP l v (some a) fresh) r h)
    else walkStepP (.node a p x l (insertP r v (some a) fresh) h)

/-- The two-children splice of `Remove` on the pointer-level model, on the
removed node's right child (fields `a p v l r h`): descend `left` to the
in-order successor; at the successor's parent,
`successor.parent.left = successor.right` and (if non-nil)
`successor.right.parent = successor.parent`; the upward walk is applied at
each node of the spine on the way back up.  Returns the successor's address,
value and stale cached height, and the walked remainder. -/
def extractMinP : Nat → Option Nat → α → PNode α → PNode α → Int →
    Nat × α × Int × PNode α
  | a, _, v, .nil, r, h => (a, v, h, r)
  | a, p, v, .node la _ lv .nil llr llh, r, h =>
    (la, lv, llh, walkStepP (.node a p v (setParentP llr (some a)) r h))
  | a, p, v, .node la lp lv (.node b bp bv bl br bh) llr llh, r, h =>
    let q := extractMinP la lp lv (.node b bp bv bl br bh) llr llh
    (q.1, q.2.1, q.2.2.1, walkStepP (.node a p v q.2.2.2 r h))

/-- `tree.Remove(value)` on the pointer-level model.  Two children: the
successor takes the removed node's address slot-wise — it keeps its own
address, receives the removed node's parent (`replacement.parent = parent`),
and both former children are re-pointed at it
(`node.left.parent = successor; node.right.parent = successor`; in the
direct-right-child case the remainder is the successor's own right child,
whose parent field already holds the successor's address, so the assignment
changes nothing).  One or no children: the replacement child gets
`replacement.parent = parent`. -/
def removeP [LinearOrder α] : PNode α → α → Option (PNode α)
  | .nil, _ => none
  | .node a p x l r h, v =>
    if x = v then
      match l, r with
      | .node la lp lx ll lr lh, .node ra rp rx rl rr rh =>
        let q := extractMinP ra rp rx rl rr rh
        some (walkStepP (.node q.1 p q.2.1
          (setParentP (.node la lp lx ll lr lh) (some q.1))
          (setParentP q.2.2.2 (some q.1)) q.2.2.1))
      | .nil, _ => some (setParentP r p)
      | _, .nil => some (setParentP l p)
    else if v < x then
      (removeP l v).map (fun l' => walkStepP (.node a p x l' r h))
    else
      (removeP r v).map (fun r' => walkStepP (.node a p x l r' h))

/-- The `AvlTree` state for the pointer-level model, extended with the
allocator counter that stands for Go's heap allocation of `&Node[T]{...}`
(every `Add` uses a fresh address). -/
structure PAvlTree (α : Type) where
  root : PNode α
  size : Int
  nextAddr : Nat
deriving DecidableEq, Repr

def NewPAvlTree (α : Type) : PAvlTree α := ⟨.nil, 0, 0⟩

def PAvlTree.Add [LinearOrder α] (t : PAvlTree α) (v : α) : PAvlTree α :=
  { root := insertP t.root v none t.nextAddr, size := t.size + 1,
    nextAddr := t.nextAddr + 1 }

def PAvlTree.Remove [LinearOrder α] (t : PAvlTree α) (v : α) :
    Bool × PAvlTree α :=
  match removeP t.root v with
  | none => (false, t)
  | some r => (true, { t with root := r, size := t.size - 1 })

def PAvlTree.Clear (t : PAvlTree α) : PAvlTree α :=
  { t with root := .nil, size := 0 }

/-- Pointer-level tree states reachable by the public mutating API. -/
inductive PReachable [LinearOrder α] : PAvlTree α → Prop where
  | new : PReachable (NewPAvlTree α)
  | add {t : PAvlTree α} (v : α) : PReachable t → PReachable (t.Add v)
  | remove {t : PAvlTree α} (v : α) : PReachable t → PReachable (t.Remove v).2
  | clear {t : PAvlTree α} : PReachable t → PReachable t.Clear

/-- The claimed pointer bookkeeping: the subtree's root has the expected
parent back-reference, and, recursively, every present child's parent
back-reference holds its actual parent's address. -/
def parentOkP : PNode α → Option Nat → Bool
  | .nil, _ => true
  | .node a p _ l r _, e =>
    decide (p = e) && parentOkP l (some a) && parentOkP r (some a)

/-- The multiset of node addresses of a subtree. -/
def addrsM : PNode α → Multiset Nat
  | .nil => 0
  | .node a _ _ l r _ => {a} + addrsM l + addrsM r

theorem parentOkP_node {a : Nat} {p e : Option Nat} {x : α} {l r : PNode α}
    {h : Int} :
    parentOkP (PNode.node a p x l r h) e = true ↔
      p = e ∧ parentOkP l (some a) = true ∧ parentOkP r (some a) = true := by
  simp [parentOkP, Bool.and_eq_true, and_assoc]

theorem setParentP_ok {t : PNode α} {e' e : Option Nat}
    (ht : parentOkP t e' = true) : parentOkP (setParentP t e) e = true := by
  cases t with
  | nil => rfl
  | node a p x l r h =>
    obtain ⟨_, hl, hr⟩ := parentOkP_node.mp ht
    exact parentOkP_node.mpr ⟨rfl, hl, hr⟩

theorem updateHeightP_ok {t : PNode α} {e : Option Nat} :
    parentOkP (updateHeightP t) e = parentOkP t e := by
  cases t <;> rfl

theorem rotateLeftP_ok {t : PNode α} {e' e : Option Nat}
    (ht : parentOkP t e' = true) :
    parentOkP (setParentP (rotateLeftP t) e) e = true := by
  cases t with
  | nil => rfl
  | node a p x l r h =>
    cases r with
    | nil => exact setParentP_ok ht
    | node ca cp cx cl cr ch =>
      obtain ⟨hp, hl, hr⟩ := parentOkP_node.mp ht
      obtain ⟨hcp, hcl, hcr⟩ := parentOkP_node.mp hr
      show parentOkP (setParentP (updateHeightP (PNode.node ca cp cx
        (updateHeightP (PNode.node a (some ca) x l (setParentP cl (some a)) h))
        cr ch)) e) e = true
      simp only [updateHeightP, setParentP]
      exact parentOkP_node.mpr ⟨rfl,
        parentOkP_node.mpr ⟨rfl, hl, setParentP_ok hcl⟩, hcr⟩

theorem rotateRightP_ok {t : PNode α} {e' e : Option Nat}
    (ht : parentOkP t e' = true) :
    parentOkP (setParentP (rotateRightP t) e) e = true := by
  cases t with
  | nil => rfl
  | node a p x l r h =>
    cases l with
    | nil => exact setParentP_ok ht
    | node ca cp cx cl cr ch =>
      obtain ⟨hp, hl, hr⟩ := parentOkP_node.mp ht
      obtain ⟨hcp, hcl, hcr⟩ := parentOkP_node.mp hl
      show parentOkP (setParentP (updateHeightP (PNode.node ca cp cx cl
        (updateHeightP (PNode.node a (some ca) x (setParentP cr (some a)) r h))
        ch)) e) e = true
      simp only [updateHeightP, setParentP]
      exact parentOkP_node.mpr ⟨rfl, hcl,
        parentOkP_node.mpr ⟨rfl, setParentP_ok hcr, hr⟩⟩

theorem rebalanceP_ok {t : PNode α} {e : Option Nat}
    (ht : parentOkP t e = true) : parentOkP (rebalanceP t) e = true := by
  cases t with
  | nil => exact ht
  | node a p x l r h =>
    obtain ⟨hp, hl, hr⟩ := parentOkP_node.mp ht
    subst hp
    rw [rebalanceP]
    split_ifs with h1 h2 h3 h4
    · rw [updateHeightP_ok]
      exact ht
    · exact rotateRightP_ok (parentOkP_node.mpr ⟨rfl, rotateLeftP_ok hl, hr⟩)
    · exact rotateRightP_ok (parentOkP_node.mpr ⟨rfl, hl, hr⟩)
    · exact rotateLeftP_ok (parentOkP_node.mpr ⟨rfl, hl, rotateRightP_ok hr⟩)
    · exact rotateLeftP_ok (parentOkP_node.mpr ⟨rfl, hl, hr⟩)

theorem walkStepP_ok {t : PNode α} {e : Option Nat}
    (ht : parentOkP t e = true) : parentOkP (walkStepP t) e = true := by
  rw [walkStepP]
  split_ifs
  · exact rebalanceP_ok (rebalanceP_ok ht)
  · exact rebalanceP_ok ht

theorem extractMinP_nilCase (a : Nat) (p : Option Nat) (v : α) (r : PNode α)
    (h : Int) : extractMinP a p v PNode.nil r h = (a, v, h, r) := rfl

theorem extractMinP_succCase (a la : Nat) (p lp : Option Nat) (v lv : α)
    (llr r : PNode α) (llh h : Int) :
    extractMinP a p v (PNode.node la lp lv PNode.nil llr llh) r h =
      (la, lv, llh,
        walkStepP (PNode.node a p v (setParentP llr (some a)) r h)) := rfl

theorem extractMinP_recCase (a la b : Nat) (p lp bp : Option Nat) (v lv bv : α)
    (bl br llr r : PNode α) (bh llh h : Int) :
    extractMinP a p v
        (PNode.node la lp lv (PNode.node b bp bv bl br bh) llr llh) r h =
      ((extractMinP la lp lv (PNode.node b bp bv bl br bh) llr llh).1,
        (extractMinP la lp lv (PNode.node b bp bv bl br bh) llr llh).2.1,
        (extractMinP la lp lv (PNode.node b bp bv bl br bh) llr llh).2.2.1,
        walkStepP (PNode.node a p v
          (extractMinP la lp lv (PNode.node b bp bv bl br bh) llr llh).2.2.2
          r h)) := rfl

theorem extractMinP_ok :
    ∀ (l : PNode α) (a : Nat) (p : Option Nat) (v : α) (r : PNode α) (h : Int),
      parentOkP (PNode.node a p v l r h) p = true →
      (l = PNode.nil → extractMinP a p v l r h = (a, v, h, r)) ∧
      (l ≠ PNode.nil →
        parentOkP (extractMinP a p v l r h).2.2.2 p = true) := by
  intro l
  induction l with
  | nil =>
    intro a p v r h _
    exact ⟨fun _ => rfl, fun hne => absurd rfl hne⟩
  | node la lp lv ll llr llh ihl ihr =>
    intro a p v r h ht
    obtain ⟨_, hl, hr⟩ := parentOkP_node.mp ht
    obtain ⟨hlp, hll, hllr⟩ := parentOkP_node.mp hl
    refine ⟨fun hcon => by simp at hcon, fun _ => ?_⟩
    cases ll with
    | nil =>
      rw [extractMinP_succCase]
      exact walkStepP_ok (parentOkP_node.mpr ⟨rfl, setParentP_ok hllr, hr⟩)
    | node b bp bv bl br bh =>
      rw [extractMinP_recCase]
      have hinner : parentOkP (PNode.node la lp lv
          (PNode.node b bp bv bl br bh) llr llh) lp = true :=
        parentOkP_node.mpr ⟨rfl, hll, hllr⟩
      have hrec := (ihl la lp lv llr llh hinner).2 (by simp)
      have hrec2 : parentOkP (extractMinP la lp lv
          (PNode.node b bp bv bl br bh) llr llh).2.2.2 (some a) = true := by
        rw [← hlp]
        exact hrec
      exact walkStepP_ok (parentOkP_node.mpr ⟨rfl, hrec2, hr⟩)

theorem removeP_ok [LinearOrder α] (v : α) :
    ∀ {t : PNode α} {e : Option Nat}, parentOkP t e = true →
      ∀ {t' : PNode α}, removeP t v = some t' → parentOkP t' e = true := by
  intro t
  induction t with
  | nil =>
    intro e _ t' hrem
    simp [removeP] at hrem
  | node a p x l r h ihl ihr =>
    intro e ht t' hrem
    obtain ⟨hp, hl, hr⟩ := parentOkP_node.mp ht
    simp only [removeP] at hrem
    split_ifs at hrem with hx hv
    · cases l with
      | nil =>
        simp only [Option.some.injEq] at hrem
        subst hrem
        exact hp ▸ setParentP_ok hr
      | node la lp lx ll lr lh =>
        cases r with
        | nil =>
          simp only [Option.some.injEq] at hrem
          subst hrem
          exact hp ▸ setParentP_ok hl
        | node ra rp rx rl rr rh =>
          simp only [Option.some.injEq] at hrem
          subst hrem
          obtain ⟨hrp, hrl, hrr⟩ := parentOkP_node.mp hr
          have hR : parentOkP (PNode.node ra rp rx rl rr rh) rp = true :=
            parentOkP_node.mpr ⟨rfl, hrl, hrr⟩
          have hext := extractMinP_ok rl ra rp rx rr rh hR
          have hrem_ok : ∃ e2, parentOkP
              (extractMinP ra rp rx rl rr rh).2.2.2 e2 = true := by
            by_cases hnil : rl = PNode.nil
            · subst hnil
              exact ⟨some ra, hrr⟩
            · exact ⟨rp, hext.2 hnil⟩
          obtain ⟨e2, he2⟩ := hrem_ok
          exact walkStepP_ok (parentOkP_node.mpr
            ⟨hp, setParentP_ok hl, setParentP_ok he2⟩)
    · rcases Option.map_eq_some'.mp hrem with ⟨l', hl', rfl⟩
      exact walkStepP_ok (parentOkP_node.mpr ⟨hp, ihl hl hl', hr⟩)
    · rcases Option.map_eq_some'.mp hrem with ⟨r', hr', rfl⟩
      exact walkStepP_ok (parentOkP_node.mpr ⟨hp, hl, ihr hr hr'⟩)

theorem insertP_ok [LinearOrder α] (v : α) (fresh : Nat) :
    ∀ {t : PNode α} {e : Option Nat}, parentOkP t e = true →
      parentOkP (insertP t v e fresh) e = true := by
  intro t
  induction t with
  | nil =>
    intro e _
    exact parentOkP_node.mpr ⟨rfl, rfl, rfl⟩
  | node a p x l r h ihl ihr =>
    intro e ht
    obtain ⟨hp, hl, hr⟩ := parentOkP_node.mp ht
    rw [insertP]
    split_ifs with hv
    · exact walkStepP_ok (parentOkP_node.mpr ⟨hp, ihl hl, hr⟩)
    · exact walkStepP_ok (parentOkP_node.mpr ⟨hp, hl, ihr hr⟩)

theorem addrsM_setParentP (t : PNode α) (e : Option Nat) :
    addrsM (setParentP t e) = addrsM t := by
  cases t <;> rfl

theorem addrsM_updateHeightP (t : PNode α) :
    addrsM (updateHeightP t) = addrsM t := by
  cases t <;> rfl

theorem addrsM_rotateLeftP (t : PNode α) :
    addrsM (rotateLeftP t) = addrsM t := by
  cases t with
  | nil => rfl
  | node a p x l r h =>
    cases r with
    | nil => rfl
    | node ca cp cx cl cr ch =>
      show addrsM (updateHeightP (PNode.node ca cp cx
        (updateHeightP (PNode.node a (some ca) x l (setParentP cl (some a)) h))
        cr ch)) = _
      simp only [addrsM_updateHeightP, addrsM, addrsM_setParentP]
      abel

theorem addrsM_rotateRightP (t : PNode α) :
    addrsM (rotateRightP t) = addrsM t := by
  cases t with
  | nil => rfl
  | node a p x l r h =>
    cases l with
    | nil => rfl
    | node ca cp cx cl cr ch =>
      show addrsM (updateHeightP (PNode.node ca cp cx cl
        (updateHeightP (PNode.node a (some ca) x (setParentP cr (some a)) r h))
        ch)) = _
      simp only [addrsM_updateHeightP, addrsM, addrsM_setParentP]
      abel

theorem addrsM_rebalanceP (t : PNode α) :
    addrsM (rebalanceP t) = addrsM t := by
  cases t with
  | nil => rfl
  | node a p x l r h =>
    rw [rebalanceP]
    split_ifs with h1 h2 h3 h4 <;>
      simp only [addrsM_updateHeightP, addrsM_setParentP, addrsM_rotateLeftP,
        addrsM_rotateRightP, addrsM]

theorem addrsM_walkStepP (t : PNode α) :
    addrsM (walkStepP t) = addrsM t := by
  rw [walkStepP]
  split_ifs <;> simp [addrsM_rebalanceP]

theorem addrsM_insertP [LinearOrder α] (v : α) (fresh : Nat) :
    ∀ (t : PNode α) (e : Option Nat),
      addrsM (insertP t v e fresh) = {fresh} + addrsM t := by
  intro t
  induction t with
  | nil =>
    intro e
    simp [insertP, addrsM]
  | node a p x l r h ihl ihr =>
    intro e
    rw [insertP]
    split_ifs with hv
    · rw [addrsM_walkStepP]
      simp only [addrsM, ihl]
      abel
    · rw [addrsM_walkStepP]
      simp only [addrsM, ihr]
      abel

theorem addrsM_extractMinP :
    ∀ (l : PNode α) (a : Nat) (p : Option Nat) (v : α) (r : PNode α) (h : Int),
      {(extractMinP a p v l r h).1} + addrsM (extractMinP a p v l r h).2.2.2 =
        addrsM (PNode.node a p v l r h) := by
  intro l
  induction l with
  | nil =>
    intro a p v r h
    rw [extractMinP_nilCase]
    simp only [addrsM]
    abel
  | node la lp lv ll llr llh ihl ihr =>
    intro a p v r h
    cases ll with
    | nil =>
      rw [extractMinP_succCase]
      simp only [addrsM_walkStepP, addrsM, addrsM_setParentP]
      abel
    | node b bp bv bl br bh =>
      rw [extractMinP_recCase]
      rw [addrsM_walkStepP]
      conv_lhs => rw [addrsM]
      conv_rhs => rw [addrsM]
      rw [← ihl la lp lv llr llh]
      abel

theorem addrsM_removeP [LinearOrder α] (v : α) :
    ∀ {t : PNode α} {t' : PNode α}, removeP t v = some t' →
      ∃ w, addrsM t = {w} + addrsM t' := by
  intro t
  induction t with
  | nil =>
    intro t' hrem
    simp [removeP] at hrem
  | node a p x l r h ihl ihr =>
    intro t' hrem
    simp only [removeP] at hrem
    split_ifs at hrem with hx hv
    · cases l with
      | nil =>
        simp only [Option.some.injEq] at hrem
        subst hrem
        refine ⟨a, ?_⟩
        simp only [addrsM, addrsM_setParentP]
        abel
      | node la lp lx ll lr lh =>
        cases r with
        | nil =>
          simp only [Option.some.injEq] at hrem
          subst hrem
          refine ⟨a, ?_⟩
          simp only [addrsM, addrsM_setParentP]
          abel
        | node ra rp rx rl rr rh =>
          simp only [Option.some.injEq] at hrem
          subst hrem
          refine ⟨a, ?_⟩
          rw [addrsM_walkStepP]
          conv_lhs => rw [addrsM]
          conv_rhs => rw [addrsM]
          simp only [addrsM_setParentP]
          rw [← addrsM_extractMinP rl ra rp rx rr rh]
          abel
    · rcases Option.map_eq_some'.mp hrem with ⟨l', hl', rfl⟩
      obtain ⟨w, hw⟩ := ihl hl'
      refine ⟨w, ?_⟩
      rw [addrsM_walkStepP]
      simp only [addrsM, hw]
      abel
    · rcases Option.map_eq_some'.mp hrem with ⟨r', hr', rfl⟩
      obtain ⟨w, hw⟩ := ihr hr'
      refine ⟨w, ?_⟩
      rw [addrsM_walkStepP]
      simp only [addrsM, hw]
      abel

/-- The pointer-bookkeeping invariant maintained by the public API: the
parent back-references are consistent from the root down (root's parent is
nil), node addresses are pairwise distinct (so an address determines the
node), and all addresses are below the allocation counter. -/
def PInv [LinearOrder α] (t : PAvlTree α) : Prop :=
  parentOkP t.root none = true ∧ (addrsM t.root).Nodup ∧
    ∀ ad ∈ addrsM t.root, ad < t.nextAddr

theorem preachable_pinv [LinearOrder α] {t : PAvlTree α} (ht : PReachable t) :
    PInv t := by
  induction ht with
  | new =>
    refine ⟨rfl, ?_, ?_⟩
    · simp [NewPAvlTree, addrsM]
    · intro ad hmem
      simp [NewPAvlTree, addrsM] at hmem
  | add v _ ih =>
    rename_i u hu
    obtain ⟨h1, h2, h3⟩ := ih
    refine ⟨insertP_ok v _ h1, ?_, ?_⟩
    · show (addrsM (insertP u.root v none u.nextAddr)).Nodup
      rw [addrsM_insertP, Multiset.singleton_add, Multiset.nodup_cons]
      exact ⟨fun hmem => absurd (h3 _ hmem) (lt_irrefl _), h2⟩
    · intro ad hmem
      have hmem2 : ad ∈ addrsM (insertP u.root v none u.nextAddr) := hmem
      rw [addrsM_insertP, Multiset.singleton_add, Multiset.mem_cons] at hmem2
      show ad < u.nextAddr + 1
      rcases hmem2 with rfl | hmem'
      · omega
      · have := h3 ad hmem'
        omega
  | remove v _ ih =>
    rename_i u hu
    obtain ⟨h1, h2, h3⟩ := ih
    rw [PAvlTree.Remove]
    cases hrem : removeP u.root v with
    | none => exact ⟨h1, h2, h3⟩
    | some r =>
      obtain ⟨w, hw⟩ := addrsM_removeP v hrem
      have hle : addrsM r ≤ addrsM u.root := by
        rw [hw]
        exact Multiset.le_add_left _ _
      refine ⟨removeP_ok v h1 hrem, Multiset.nodup_of_le hle h2, ?_⟩
      intro ad hmem
      exact h3 ad (Multiset.mem_of_le hle hmem)
  | clear _ ih =>
    refine ⟨rfl, ?_, ?_⟩
    · simp [PAvlTree.Clear, addrsM]
    · intro ad hmem
      simp [PAvlTree.Clear, addrsM] at hmem

end ParentModel

section ClaimC9

variable {α : Type} [LinearOrder α]

/-- C9: after every public mutating operation (`Add`, `Remove`, `Clear`)
returns, the pointer bookkeeping is internally consistent: on the
pointer-level model — each node carrying its heap address and its `parent`
back-reference as the parent's address — every present child's parent field
holds exactly its parent's address, the root's parent field is nil, and
node addresses are pairwise distinct (so "points at that node" is
well-defined). -/
theorem C9_parent_consistency {t : PAvlTree α} (ht : PReachable t) :
    parentOkP t.root none = true ∧ (addrsM t.root).Nodup := by
  obtain ⟨h1, h2, _⟩ := preachable_pinv ht
  exact ⟨h1, h2⟩

/-- Witness for C9 on a state built by three inserts (with a rotation) and
one two-children removal. -/
theorem C9_parent_consistency_witness :
    parentOkP ((((((NewPAvlTree Int).Add 1).Add 2).Add 3).Remove 2).2).root
        none = true ∧
      (addrsM ((((((NewPAvlTree Int).Add 1).Add 2).Add 3).Remove 2).2).root).Nodup :=
  C9_parent_consistency (PReachable.remove 2 (PReachable.add 3
    (PReachable.add 2 (PReachable.add 1 PReachable.new))))

end ClaimC9

section Erasure

variable {α : Type}

/-- Forget the addresses and parent back-references of the pointer-level
model, leaving the plain tree of the main embedding. -/
def eraseP : PNode α → NodeT α
  | .nil => .nil
  | .node _ _ v l r h => .node v (eraseP l) (eraseP r) h

theorem eraseP_heightOf (t : PNode α) : heightOf (eraseP t) = pheightOf t := by
  cases t <;> rfl

theorem eraseP_balanceFactor (t : PNode α) :
    balanceFactor (eraseP t) = pbalanceFactor t := by
  cases t with
  | nil => rfl
  | node a p v l r h =>
    show heightOf (eraseP r) - heightOf (eraseP l) = _
    rw [eraseP_heightOf, eraseP_heightOf]
    rfl

theorem eraseP_setParentP (t : PNode α) (e : Option Nat) :
    eraseP (setParentP t e) = eraseP t := by
  cases t <;> rfl

theorem eraseP_updateHeightP (t : PNode α) :
    eraseP (updateHeightP t) = updateHeight (eraseP t) := by
  cases t with
  | nil => rfl
  | node a p v l r h =>
    show NodeT.node v (eraseP l) (eraseP r)
        (max (pheightOf l) (pheightOf r) + 1) =
      NodeT.node v (eraseP l) (eraseP r)
        (max (heightOf (eraseP l)) (heightOf (eraseP r)) + 1)
    rw [eraseP_heightOf, eraseP_heightOf]

theorem eraseP_rotateLeftP (t : PNode α) :
    eraseP (rotateLeftP t) = rotateLeft (eraseP t) := by
  cases t with
  | nil => rfl
  | node a p v l r h =>
    cases r with
    | nil => rfl
    | node ca cp cx cl cr ch =>
      show eraseP (updateHeightP (PNode.node ca cp cx
          (updateHeightP (PNode.node a (some ca) v l
            (setParentP cl (some a)) h)) cr ch)) = _
      rw [eraseP_updateHeightP]
      show updateHeight (NodeT.node cx
          (eraseP (updateHeightP (PNode.node a (some ca) v l
            (setParentP cl (some a)) h))) (eraseP cr) ch) = _
      rw [eraseP_updateHeightP]
      show updateHeight (NodeT.node cx
          (updateHeight (NodeT.node v (eraseP l)
            (eraseP (setParentP cl (some a))) h)) (eraseP cr) ch) = _
      rw [eraseP_setParentP]
      rfl

theorem eraseP_rotateRightP (t : PNode α) :
    eraseP (rotateRightP t) = rotateRight (eraseP t) := by
  cases t with
  | nil => rfl
  | node a p v l r h =>
    cases l with
    | nil => rfl
    | node ca cp cx cl cr ch =>
      show eraseP (updateHeightP (PNode.node ca cp cx cl
          (updateHeightP (PNode.node a (some ca) v
            (setParentP cr (some a)) r h)) ch)) = _
      rw [eraseP_updateHeightP]
      show updateHeight (NodeT.node cx (eraseP cl)
          (eraseP (updateHeightP (PNode.node a (some ca) v
            (setParentP cr (some a)) r h))) ch) = _
      rw [eraseP_updateHeightP]
      show updateHeight (NodeT.node cx (eraseP cl)
          (updateHeight (NodeT.node v
            (eraseP (setParentP cr (some a))) (eraseP r) h)) ch) = _
      rw [eraseP_setParentP]
      rfl

theorem eraseP_rebalanceP (t : PNode α) :
    eraseP (rebalanceP t) = rebalance (eraseP t) := by
  cases t with
  | nil => rfl
  | node a p v l r h =>
    have hbfl := eraseP_balanceFactor l
    have hbfr := eraseP_balanceFactor r
    have hshape : eraseP (PNode.node a p v l r h) =
        NodeT.node v (eraseP l) (eraseP r) h := rfl
    have hbfE : balanceFactor (NodeT.node v (eraseP l) (eraseP r) h) =
        pbalanceFactor (PNode.node a p v l r h) := by
      show heightOf (eraseP r) - heightOf (eraseP l) = _
      rw [eraseP_heightOf, eraseP_heightOf]
      rfl
    rw [rebalanceP]
    conv_rhs => rw [hshape, rebalance]
    rw [hbfE, hbfl, hbfr]
    split_ifs
    · rw [eraseP_updateHeightP]
      rfl
    · rw [eraseP_setParentP, eraseP_rotateRightP]
      show rotateRight (NodeT.node v
          (eraseP (setParentP (rotateLeftP l) (some a))) (eraseP r) h) = _
      rw [eraseP_setParentP, eraseP_rotateLeftP]
    · rw [eraseP_setParentP, eraseP_rotateRightP]
      rfl
    · rw [eraseP_setParentP, eraseP_rotateLeftP]
      show rotateLeft (NodeT.node v (eraseP l)
          (eraseP (setParentP (rotateRightP r) (some a))) h) = _
      rw [eraseP_setParentP, eraseP_rotateRightP]
    · rw [eraseP_setParentP, eraseP_rotateLeftP]
      rfl

theorem eraseP_walkStepP (t : PNode α) :
    eraseP (walkStepP t) = walkStep (eraseP t) := by
  rw [walkStepP, walkStep, eraseP_balanceFactor]
  split_ifs <;> simp only [eraseP_rebalanceP]

theorem eraseP_insertP [LinearOrder α] (v : α) (fresh : Nat) :
    ∀ (t : PNode α) (e : Option Nat),
      eraseP (insertP t v e fresh) = insertAndRebalance (eraseP t) v := by
  intro t
  induction t with
  | nil => intro e; rfl
  | node a p x l r h ihl ihr =>
    intro e
    rw [insertP]
    show _ = insertAndRebalance (NodeT.node x (eraseP l) (eraseP r) h) v
    rw [insertAndRebalance]
    split_ifs with hv
    · rw [eraseP_walkStepP]
      show walkStep (NodeT.node x (eraseP (insertP l v (some a) fresh))
          (eraseP r) h) = _
      rw [ihl]
    · rw [eraseP_walkStepP]
      show walkStep (NodeT.node x (eraseP l)
          (eraseP (insertP r v (some a) fresh)) h) = _
      rw [ihr]

theorem eraseP_extractMinP :
    ∀ (l : PNode α) (a : Nat) (p : Option Nat) (v : α) (r : PNode α) (h : Int),
      (extractMinP a p v l r h).2.1 = (extractMin v (eraseP l) (eraseP r) h).1 ∧
      (extractMinP a p v l r h).2.2.1 =
        (extractMin v (eraseP l) (eraseP r) h).2.1 ∧
      eraseP (extractMinP a p v l r h).2.2.2 =
        (extractMin v (eraseP l) (eraseP r) h).2.2 := by
  intro l
  induction l with
  | nil =>
    intro a p v r h
    exact ⟨rfl, rfl, rfl⟩
  | node la lp lv ll llr llh ihl ihr =>
    intro a p v r h
    cases ll with
    | nil =>
      rw [extractMinP_succCase]
      refine ⟨rfl, rfl, ?_⟩
      show eraseP (walkStepP (PNode.node a p v (setParentP llr (some a)) r h)) = _
      rw [eraseP_walkStepP]
      show walkStep (NodeT.node v (eraseP (setParentP llr (some a)))
          (eraseP r) h) = _
      rw [eraseP_setParentP]
      rfl
    | node b bp bv bl br bh =>
      rw [extractMinP_recCase]
      obtain ⟨h1, h2, h3⟩ := ihl la lp lv llr llh
      refine ⟨h1, h2, ?_⟩
      show eraseP (walkStepP (PNode.node a p v
          (extractMinP la lp lv (PNode.node b bp bv bl br bh) llr llh).2.2.2
          r h)) = _
      rw [eraseP_walkStepP]
      show walkStep (NodeT.node v
          (eraseP (extractMinP la lp lv
            (PNode.node b bp bv bl br bh) llr llh).2.2.2) (eraseP r) h) = _
      rw [h3]
      rfl

theorem eraseP_removeP [LinearOrder α] (v : α) :
    ∀ (t : PNode α), (removeP t v).map eraseP =
      removeAndRebalance (eraseP t) v := by
  intro t
  induction t with
  | nil => rfl
  | node a p x l r h ihl ihr =>
    show (removeP (PNode.node a p x l r h) v).map eraseP =
      removeAndRebalance (NodeT.node x (eraseP l) (eraseP r) h) v
    simp only [removeAndRebalance, removeP]
    split_ifs with hx hv
    · cases l with
      | nil =>
        cases r <;> simp [eraseP_setParentP, eraseP]
      | node la lp lx ll lr lh =>
        cases r with
        | nil => simp [eraseP_setParentP, eraseP]
        | node ra rp rx rl rr rh =>
          obtain ⟨h1, h2, h3⟩ := eraseP_extractMinP rl ra rp rx rr rh
          simp only [Option.map_some']
          show some (eraseP (walkStepP (PNode.node
              (extractMinP ra rp rx rl rr rh).1 p
              (extractMinP ra rp rx rl rr rh).2.1
              (setParentP (PNode.node la lp lx ll lr lh)
                (some (extractMinP ra rp rx rl rr rh).1))
              (setParentP (extractMinP ra rp rx rl rr rh).2.2.2
                (some (extractMinP ra rp rx rl rr rh).1))
              (extractMinP ra rp rx rl rr rh).2.2.1))) = _
          rw [eraseP_walkStepP]
          show some (walkStep (NodeT.node
              (extractMinP ra rp rx rl rr rh).2.1
              (eraseP (setParentP (PNode.node la lp lx ll lr lh)
                (some (extractMinP ra rp rx rl rr rh).1)))
              (eraseP (setParentP (extractMinP ra rp rx rl rr rh).2.2.2
                (some (extractMinP ra rp rx rl rr rh).1)))
              (extractMinP ra rp rx rl rr rh).2.2.1)) = _
          rw [eraseP_setParentP, eraseP_setParentP, h1, h2, h3]
          rfl
    · rw [← ihl]
      cases hrem : removeP l v with
      | none => rfl
      | some l' =>
        simp only [Option.map_some']
        show some (eraseP (walkStepP (PNode.node a p x l' r h))) =
          some (walkStep (NodeT.node x (eraseP l') (eraseP r) h))
        rw [eraseP_walkStepP]
        rfl
    · rw [← ihr]
      cases hrem : removeP r v with
      | none => rfl
      | some r' =>
        simp only [Option.map_some']
        show some (eraseP (walkStepP (PNode.node a p x l r' h))) =
          some (walkStep (NodeT.node x (eraseP l) (eraseP r') h))
        rw [eraseP_walkStepP]
        rfl

/-- Erase a pointer-level tree state to a main-model tree state. -/
def erasePTree [LinearOrder α] (t : PAvlTree α) : AvlTree α :=
  ⟨eraseP t.root, t.size⟩

/-- The pointer-level model used for the parent-bookkeeping claim computes
exactly the main model: every reachable pointer-level state erases to a
reachable state of the main embedding (same shape, values, heights and
size). -/
theorem erasePTree_reachable [LinearOrder α] {t : PAvlTree α}
    (ht : PReachable t) : Reachable (erasePTree t) := by
  induction ht with
  | new => exact Reachable.new
  | add v _ ih =>
    rename_i u hu
    have heq : erasePTree (u.Add v) = (erasePTree u).Add v := by
      show (⟨eraseP (insertP u.root v none u.nextAddr), u.size + 1⟩ :
        AvlTree α) = _
      rw [eraseP_insertP]
      rfl
    rw [heq]
    exact Reachable.add v ih
  | remove v _ ih =>
    rename_i u hu
    have hmap := eraseP_removeP v u.root
    have heq : erasePTree (u.Remove v).2 = ((erasePTree u).Remove v).2 := by
      rw [PAvlTree.Remove, AvlTree.Remove]
      cases hrem : removeP u.root v with
      | none =>
        rw [hrem] at hmap
        rw [show removeAndRebalance (erasePTree u).root v = none from hmap.symm]
      | some r =>
        rw [hrem] at hmap
        rw [show removeAndRebalance (erasePTree u).root v = some (eraseP r)
          from hmap.symm]
        rfl
    rw [heq]
    exact Reachable.remove v ih
  | clear _ ih =>
    rename_i u hu
    exact Reachable.clear ih

end Erasure

end Avl
